import Mathlib

/-!
# labynkyr: candidate key forest and comparison key verifier

A shallow embedding of

* `src/labynkyr/search/verify/ComparisonKeyVerifier.hpp` (class `ComparisonKeyVerifier`),
* `src/labynkyr/search/enumerate/CandidateKeyForest.hpp` (class `CandidateKeyForest`),

together with the two collaborators whose headers are not at hand (`KeyVerifier.hpp`,
`CandidateKeyTree.hpp`), which are modelled from the specification.

Conventions.

* `uint64_t` and `uint32_t` values are natural numbers, reduced modulo `2 ^ 64` and `2 ^ 32`
  where the C++ arithmetic can wrap.
* A byte vector (`std::vector<uint8_t>`) is a `List Nat`; the bytes of a `Key` are such a list.
* The vectors of trees behind `std::shared_ptr` live in a `Heap`; a shared pointer is the
  address of a cell of the heap, so that aliasing and later growth of a captured vector are
  visible exactly as in the C++ object graph.
* A computation that has no defined result is `none`: a read past the end of a vector, a write
  outside the working buffers, or a traversal that did not finish within its fuel.
-/

namespace labynkyr.search

/-- Modulus of `uint64_t` arithmetic. -/
def U64 : Nat := 2 ^ 64

/-- Modulus of `uint32_t` arithmetic. -/
def U32 : Nat := 2 ^ 32

/-! ## KeyVerifier -/

/-- Modelled from the spec: the abstract class `KeyVerifier<KeyLenBits>` of `KeyVerifier.hpp`,
which is missing from the sources. An implementation is a state type `σ` with the five
operations of the interface. `checkKey` is the only operation the traversal uses to change the
verifier; it may have no defined result (`none`). `correctKey` returns the located key or an
error message, together with the state it leaves. -/
structure KeyVerifier (σ : Type) where
  checkKey : σ → List Nat → Option σ
  keysChecked : σ → Nat
  success : σ → Bool
  correctKey : σ → Except String (List Nat) × σ
  flush : σ → σ

/-! ## ComparisonKeyVerifier -/

/-- The three-iterator `std::equal(first1, last1, first2)`: walks the first range and compares
it element by element with what `first2` points at, returning `false` at the first difference.
It never looks at the length of the second range; reading past its end is undefined
behaviour (`none`). -/
def stdEqual : List Nat → List Nat → Option Bool
  | [], _ => some true
  | _ :: _, [] => none
  | k :: ks, c :: cs => if k = c then stdEqual ks cs else some false

/-- The members of `ComparisonKeyVerifier<KeyLenBits>`: the known key (as the bytes
`key.asBytes()`), the counter `count` and the flag `keyFound`. -/
structure ComparisonKeyVerifier where
  key : List Nat
  count : Nat
  keyFound : Bool
deriving DecidableEq, Repr

namespace ComparisonKeyVerifier

/-- The constructor `ComparisonKeyVerifier(Key<KeyLenBits> key)`: `count(0)`, `keyFound(false)`. -/
def ctor (key : List Nat) : ComparisonKeyVerifier :=
  ⟨key, 0, false⟩

/-- The method `checkKey`: `match = std::equal(key.begin, key.end, candidate.begin)`, then
`count++` on a `uint64_t` and `keyFound |= match`. -/
def checkKey (self : ComparisonKeyVerifier) (candidateKeyBytes : List Nat) :
    Option ComparisonKeyVerifier :=
  match stdEqual self.key candidateKeyBytes with
  | none => none
  | some isMatch => some ⟨self.key, (self.count + 1) % U64, self.keyFound || isMatch⟩

/-- The method `keysChecked`: returns `count`. -/
def keysChecked (self : ComparisonKeyVerifier) : Nat :=
  self.count

/-- The method `success`: returns `keyFound`. -/
def success (self : ComparisonKeyVerifier) : Bool :=
  self.keyFound

/-- The method `correctKey`: returns `key` if `keyFound`, otherwise throws
`std::logic_error("Key has not been found")`. The object is left as it was. -/
def correctKey (self : ComparisonKeyVerifier) : Except String (List Nat) × ComparisonKeyVerifier :=
  if self.keyFound then (Except.ok self.key, self)
  else (Except.error "Key has not been found", self)

/-- The method `flush`: empty body. -/
def flush (self : ComparisonKeyVerifier) : ComparisonKeyVerifier :=
  self

/-- The class `ComparisonKeyVerifier` as an implementation of the `KeyVerifier` interface. -/
def iface : KeyVerifier ComparisonKeyVerifier :=
  ⟨checkKey, keysChecked, success, correctKey, flush⟩

/-- A sequence of `checkKey` calls, one after the other, on the same verifier. -/
def checkKeys : ComparisonKeyVerifier → List (List Nat) → Option ComparisonKeyVerifier
  | self, [] => some self
  | self, c :: cs => (checkKey self c).bind fun next => checkKeys next cs

end ComparisonKeyVerifier

/-! ## ComparisonKeyVerifierFactory -/

/-- The member of `ComparisonKeyVerifierFactory<KeyLenBits>`: the key (as its bytes). -/
structure ComparisonKeyVerifierFactory where
  key : List Nat
deriving DecidableEq, Repr

namespace ComparisonKeyVerifierFactory

/-- The constructor `ComparisonKeyVerifierFactory(Key<KeyLenBits> key)`. -/
def ctor (key : List Nat) : ComparisonKeyVerifierFactory :=
  ⟨key⟩

end ComparisonKeyVerifierFactory

/-! ## CandidateKeyTree and the heap of shared tree vectors -/

/-- Modelled from the spec: the class `CandidateKeyTree` of `CandidateKeyTree.hpp`, which is
missing from the sources. A tree is built by the constructor
`(fixedValue, childForestRef, childForestSizeAtCaptureTime)`: the subkey value it fixes, the
shared reference to the captured forest (here the address of that vector of trees in the heap)
and the size read once at capture time. -/
structure CandidateKeyTree where
  fixedValue : Nat
  childForest : Nat
  size : Nat
deriving DecidableEq, Repr

/-- The store of the `std::vector`s of trees that the `std::shared_ptr`s point to: `mem a` is
the vector at address `a`, `next` is the address the next `std::make_shared` returns. -/
structure Heap where
  mem : Nat → List CandidateKeyTree
  next : Nat

namespace Heap

/-- The heap before anything is allocated. -/
def empty : Heap :=
  ⟨fun _ => [], 0⟩

/-- `std::make_shared<std::vector<...>>()`: a new, empty vector at a fresh address. -/
def makeShared (h : Heap) : Heap × Nat :=
  (⟨fun a => if a = h.next then [] else h.mem a, h.next + 1⟩, h.next)

/-- `vec->push_back(tree)` on the vector at address `p`. -/
def pushBack (h : Heap) (p : Nat) (tree : CandidateKeyTree) : Heap :=
  ⟨fun a => if a = p then h.mem p ++ [tree] else h.mem a, h.next⟩

/-- The vectors reachable from address `a` nest at most `n` levels deep: `fits h 0 a` says the
vector at `a` is empty, `fits h (n + 1) a` that the child forest of each of its trees fits in
`n` levels. A forest whose vector fits in `VecCount` levels is traversed without leaving the
working buffers. -/
def fits (h : Heap) : Nat → Nat → Bool
  | 0, a => (h.mem a).isEmpty
  | n + 1, a => (h.mem a).all fun t => fits h n t.childForest

/-- The heap holds the chain of the values `vs` above address `base`: the vector at `base` is
empty, and for each further value the next address holds exactly one tree of size 1 with that
value, whose child forest is the vector one address below. The first value of `vs` is the
outermost tree, at address `base + vs.length`. -/
def holdsChainAt (h : Heap) (base : Nat) : List Nat → Prop
  | [] => h.mem base = []
  | w :: ws => h.mem (base + ws.length + 1) = [⟨w, base + ws.length, 1⟩] ∧
      holdsChainAt h base ws

end Heap

/-- The template parameters `VecCount` and `VecLenBits` of the forest and the tree, and the bit
layout of the external `Key` collaborator: `pack depth value bytes` is the byte buffer after the
subkey `value` of position `depth` has been packed into its bit range. -/
structure Params where
  VecCount : Nat
  VecLenBits : Nat
  pack : Nat → Nat → List Nat → List Nat

/-- The loop "for each element in order, but return immediately once `stop` holds". -/
def forEachUntil {α β : Type} (stop : β → Bool) (body : α → β → Option β) :
    List α → β → Option β
  | [], b => some b
  | a :: rest, b => if stop b then some b else (body a b).bind (forEachUntil stop body rest)

/-- Modelled from the spec: the method `CandidateKeyTree::buildAndVerifyKeys` of the missing
`CandidateKeyTree.hpp`. It writes `fixedValue` into `workingValues[depth]` (an index outside
the buffer has no defined result) and packs it into `workingBytes`; if the child forest is empty
it calls `verifier.checkKey(workingBytes)` once; otherwise it recurses into the trees of the
child forest in insertion order with `depth + 1`, returning as soon as `verifier.success()` is
true. The recursion follows pointers through the heap, so it is bounded by `fuel`. The result
is the two working buffers and the verifier as the call leaves them. -/
def CandidateKeyTree.buildAndVerifyKeys {σ : Type} (P : Params) (V : KeyVerifier σ) :
    Nat → Heap → CandidateKeyTree → List Nat → List Nat → Nat → σ →
      Option (List Nat × List Nat × σ)
  | 0, _, _, _, _, _, _ => none
  | fuel + 1, h, self, workingValues, workingBytes, depth, verifier =>
    if depth < workingValues.length then
      let values := workingValues.set depth self.fixedValue
      let bytes := P.pack depth self.fixedValue workingBytes
      match h.mem self.childForest with
      | [] => (V.checkKey verifier bytes).map fun v => (values, bytes, v)
      | sibling :: siblings =>
        forEachUntil (fun st => V.success st.2.2)
          (fun tree st => CandidateKeyTree.buildAndVerifyKeys P V fuel h tree st.1 st.2.1
            (depth + 1) st.2.2)
          (sibling :: siblings) (values, bytes, verifier)
    else none

/-! ## CandidateKeyForest -/

/-- The members of `CandidateKeyForest`: the shared pointer `forest` to its vector of trees
(an address in the heap) and the running total `forestSize`. -/
structure CandidateKeyForest where
  forest : Nat
  forestSize : Nat
deriving DecidableEq, Repr

namespace CandidateKeyForest

/-- The constructor `CandidateKeyForest(uint64_t forestSize)`: stores `forestSize` and
allocates an empty vector of trees. -/
def ctor (h : Heap) (forestSize : Nat) : Heap × CandidateKeyForest :=
  (h.makeShared.1, ⟨h.makeShared.2, forestSize⟩)

/-- The method `size`: returns `forestSize`. -/
def size (self : CandidateKeyForest) : Nat :=
  self.forestSize

/-- The method `getForest`: returns the shared pointer. -/
def getForest (self : CandidateKeyForest) : Nat :=
  self.forest

/-- The tree list of a forest: what its shared pointer points to in the heap. -/
def trees (h : Heap) (self : CandidateKeyForest) : List CandidateKeyTree :=
  h.mem self.forest

/-- The method `merge`: if `other.size() > 0`, a new tree
`(nextValue, other.getForest(), other.size())` is pushed onto the vector of this forest and
`forestSize += newTree->size()` (on a `uint64_t`); otherwise nothing happens. `other` is read
before this forest is changed, so the call is also right when `other` is this forest. -/
def merge (h : Heap) (self other : CandidateKeyForest) (nextValue : Nat) :
    Heap × CandidateKeyForest :=
  if other.size > 0 then
    let newTree : CandidateKeyTree := ⟨nextValue, other.getForest, other.size⟩
    (h.pushBack self.forest newTree, ⟨self.forest, (self.forestSize + newTree.size) % U64⟩)
  else (h, self)

/-- The number of bytes of a key, as `verifyKeys` and `verifyMergeCandidates` compute it in
`uint32_t` arithmetic: `(bits % 8 != 0) ? bits / 8 + 1 : bits / 8` with
`bits = VecCount * VecLenBits`. -/
def byteCount (P : Params) : Nat :=
  let keyBitLength := (P.VecCount * P.VecLenBits) % U32
  if keyBitLength % 8 ≠ 0 then keyBitLength / 8 + 1 else keyBitLength / 8

/-- The method `verifyKeys`: for every tree of the forest, in order, if `tree->size() > 0` and
`!verifier.success()`, fresh zeroed buffers `keyBytes(byteCount)` and `keyValues(VecCount)` are
made and `tree->buildAndVerifyKeys(keyValues, keyBytes, 0, verifier)` is called. -/
def verifyKeys {σ : Type} (P : Params) (V : KeyVerifier σ) (fuel : Nat) (h : Heap)
    (self : CandidateKeyForest) (verifier : σ) : Option σ :=
  (trees h self).foldlM
    (fun v tree =>
      if tree.size > 0 && !V.success v then
        (tree.buildAndVerifyKeys P V fuel h (List.replicate P.VecCount 0)
          (List.replicate (byteCount P) 0) 0 v).map fun r => r.2.2
      else some v)
    verifier

/-- The method `verifyMergeCandidates`: if `other.size() > 0`, a tree
`mergeTree(nextValue, other.getForest(), other.size())` is built on the stack and, if
`mergeTree.size() > 0`, traversed with fresh buffers. Neither forest is changed. -/
def verifyMergeCandidates {σ : Type} (P : Params) (V : KeyVerifier σ) (fuel : Nat) (h : Heap)
    (_self : CandidateKeyForest) (verifier : σ) (other : CandidateKeyForest) (nextValue : Nat) :
    Option σ :=
  if other.size > 0 then
    let mergeTree : CandidateKeyTree := ⟨nextValue, other.getForest, other.size⟩
    if mergeTree.size > 0 then
      (mergeTree.buildAndVerifyKeys P V fuel h (List.replicate P.VecCount 0)
        (List.replicate (byteCount P) 0) 0 verifier).map fun r => r.2.2
    else some verifier
  else some verifier

/-- The static method `emptySet`: `new CandidateKeyForest(0)`. -/
def emptySet (h : Heap) : Heap × CandidateKeyForest :=
  ctor h 0

/-- The static method `acceptStateSet`: `new CandidateKeyForest(1)`. -/
def acceptStateSet (h : Heap) : Heap × CandidateKeyForest :=
  ctor h 1

/-- The static method `rejectStateSet`: `return acceptStateSet()`. -/
def rejectStateSet (h : Heap) : Heap × CandidateKeyForest :=
  acceptStateSet h

/-- A sequence of `merge` calls on one forest, each with its own `other` and `nextValue`. -/
def mergeAll (h : Heap) (self : CandidateKeyForest) :
    List (CandidateKeyForest × Nat) → Heap × CandidateKeyForest
  | [] => (h, self)
  | op :: ops => mergeAll (merge h self op.1 op.2).1 (merge h self op.1 op.2).2 ops

/-- The same `merge` call repeated `n` times. -/
def mergeRepeat (other : CandidateKeyForest) (nextValue : Nat) :
    Nat → Heap × CandidateKeyForest → Heap × CandidateKeyForest
  | 0, st => st
  | n + 1, st => mergeRepeat other nextValue n (merge st.1 st.2 other nextValue)

/-- The sum of `size()` over a list of trees. -/
def sumSizes (ts : List CandidateKeyTree) : Nat :=
  (ts.map fun t => t.size).sum

/-- The loop `for v in vs: F.merge(*acceptStateSet(), v)`: every merge is given its own, newly
made accept-state forest. -/
def mergeAccepts : Heap → CandidateKeyForest → List Nat → Heap × CandidateKeyForest
  | h, self, [] => (h, self)
  | h, self, v :: vs =>
    mergeAccepts (merge (acceptStateSet h).1 self (acceptStateSet h).2 v).1
      (merge (acceptStateSet h).1 self (acceptStateSet h).2 v).2 vs

/-- A single-position forest: `emptySet()`, then `merge(acceptStateSet(), v)` for each value of
`vs` in order. -/
def singlePosition (h : Heap) (vs : List Nat) : Heap × CandidateKeyForest :=
  mergeAccepts (emptySet h).1 (emptySet h).2 vs

/-- The chain of merges of a single candidate: for `[v_0, ..., v_{n-1}]` the forest `F_0`,
where `F_{n-1} = emptySet().merge(acceptStateSet(), v_{n-1})` and
`F_i = emptySet().merge(F_{i+1}, v_i)`; for the empty list the accept-state forest itself. -/
def chain (h : Heap) : List Nat → Heap × CandidateKeyForest
  | [] => acceptStateSet h
  | v :: vs => merge (emptySet (chain h vs).1).1 (emptySet (chain h vs).1).2 (chain h vs).2 v

end CandidateKeyForest

/-! ## Instrumentation and instances used by the theorems -/

/-- A verifier instrumented with the log of its `checkKey` calls: every call appends the state
it was made in and the candidate it was given. The wrapped verifier behaves as before. -/
def KeyVerifier.recording {σ : Type} (V : KeyVerifier σ) :
    KeyVerifier (σ × List (σ × List Nat)) :=
  ⟨fun st c => (V.checkKey st.1 c).map fun next => (next, st.2 ++ [(st.1, c)]),
   fun st => V.keysChecked st.1,
   fun st => V.success st.1,
   fun st => ((V.correctKey st.1).1, ((V.correctKey st.1).2, st.2)),
   fun st => (V.flush st.1, st.2)⟩

/-- The predicate `V.LogFrom s log t`: starting in state `s`, the calls of `log` were made one
after the other, each in the state the log records for it, and they lead to state `t`. -/
def KeyVerifier.LogFrom {σ : Type} (V : KeyVerifier σ) : σ → List (σ × List Nat) → σ → Prop
  | s, [], t => t = s
  | s, e :: rest, t => e.1 = s ∧ ∃ next, V.checkKey s e.2 = some next ∧ V.LogFrom next rest t

/-- Modelled from the spec: the packing of the missing `Key` collaborator for `VecLenBits = 8`,
where the subkey of position `depth` is byte `depth` of the key. -/
def pack8 (depth value : Nat) (bytes : List Nat) : List Nat :=
  bytes.set depth (value % 256)

/-- The template instance `VecCount = n`, `VecLenBits = 8`. -/
def params8 (n : Nat) : Params :=
  ⟨n, 8, pack8⟩

/-- The bytes `vals` written into a buffer from position `d` on, one `pack8` after the other. -/
def packFrom : Nat → List Nat → List Nat → List Nat
  | _, [], bytes => bytes
  | d, v :: vs, bytes => packFrom (d + 1) vs (pack8 d v bytes)

/-- Modelled from the spec: `CandidateKeyTree::buildAndVerifyKeys` in state-passing form, with
the heap of shared tree vectors as part of the state. The method reaches the vectors through
the shared pointers of the trees, so every step takes the heap as the step before left it,
reads the child forest from that heap and hands the heap on to the next step; the steps spec
4.3 lists are the write into `workingValues`, the packing into `workingBytes`, the `checkKey`
call and the recursion into the siblings. -/
def CandidateKeyTree.buildAndVerifyKeysHeap {σ : Type} (P : Params) (V : KeyVerifier σ) :
    Nat → Heap → CandidateKeyTree → List Nat → List Nat → Nat → σ →
      Option (Heap × List Nat × List Nat × σ)
  | 0, _, _, _, _, _, _ => none
  | fuel + 1, h, self, workingValues, workingBytes, depth, verifier =>
    if depth < workingValues.length then
      let values := workingValues.set depth self.fixedValue
      let bytes := P.pack depth self.fixedValue workingBytes
      match h.mem self.childForest with
      | [] => (V.checkKey verifier bytes).map fun v => (h, values, bytes, v)
      | sibling :: siblings =>
        forEachUntil (fun st => V.success st.2.2.2)
          (fun tree st => CandidateKeyTree.buildAndVerifyKeysHeap P V fuel st.1 tree st.2.1
            st.2.2.1 (depth + 1) st.2.2.2)
          (sibling :: siblings) (h, values, bytes, verifier)
    else none

/-- The method `verifyMergeCandidates` in state-passing form: the state is the heap, this
forest, the other forest and the verifier. The body is that of the source: under the guard
`other.size() > 0` the tree `mergeTree` is built as a local object (it is put in no vector) and,
if `mergeTree.size() > 0`, traversed with fresh buffers; the heap after the call is the heap
the traversal leaves. The method is `const` and `other` a `const` reference, so the members
`forest` and `forestSize` of the two forest objects are not assignable in the body. -/
def CandidateKeyForest.verifyMergeCandidatesHeap {σ : Type} (P : Params) (V : KeyVerifier σ)
    (fuel : Nat) (h : Heap) (self : CandidateKeyForest) (verifier : σ)
    (other : CandidateKeyForest) (nextValue : Nat) :
    Option (Heap × CandidateKeyForest × CandidateKeyForest × σ) :=
  if other.size > 0 then
    let mergeTree : CandidateKeyTree := ⟨nextValue, other.getForest, other.size⟩
    if mergeTree.size > 0 then
      (mergeTree.buildAndVerifyKeysHeap P V fuel h (List.replicate P.VecCount 0)
        (List.replicate (CandidateKeyForest.byteCount P) 0) 0 verifier).map
        fun r => (r.1, self, other, r.2.2.2)
    else some (h, self, other, verifier)
  else some (h, self, other, verifier)

/-- The number of leaves below a tree whose child forest is the vector at address `a`, looking
at most `n` levels down: a tree with an empty child forest is one leaf. -/
def Heap.leaves (h : Heap) : Nat → Nat → Nat
  | 0, _ => 1
  | n + 1, a =>
    match h.mem a with
    | [] => 1
    | t :: ts => ((t :: ts).map fun c => Heap.leaves h n c.childForest).sum

/-- The number of full-key candidates of the vector at address `a` as the tree list of a forest
with `n` positions: the leaves below its trees of nonzero size. -/
def Heap.candidates (h : Heap) (n a : Nat) : Nat :=
  ((h.mem a).map fun t => if 0 < t.size then Heap.leaves h (n - 1) t.childForest else 0).sum

/-- The captured sizes below a tree are exact, with `n` more key positions to fill below it.
At the last position (`n = 0`) the child forest is empty (a captured accept-state sentinel) and
the size is 1; above it the child forest is not empty, the size is the sum of the sizes of the
trees in the child forest, and these are exact with `n - 1` positions below them. So every
leaf below the tree lies exactly `n` levels down. -/
def Heap.sizesExact (h : Heap) : Nat → CandidateKeyTree → Bool
  | 0, t => (h.mem t.childForest).isEmpty && t.size == 1
  | n + 1, t =>
    !(h.mem t.childForest).isEmpty &&
      (t.size == CandidateKeyForest.sumSizes (h.mem t.childForest) &&
        (h.mem t.childForest).all fun c => Heap.sizesExact h n c)

/-- A forest is well sized for `n` key positions. For `n = 0` it is an accept-state sentinel:
size 1 and no trees. For `n > 0` its size is the sum of the sizes of its trees and the sizes of
its trees are exact with `n - 1` positions below them. -/
def Heap.wellSized (h : Heap) : Nat → CandidateKeyForest → Bool
  | 0, G => G.size == 1 && (h.mem G.forest).isEmpty
  | n + 1, G =>
    G.size == CandidateKeyForest.sumSizes (h.mem G.forest) &&
      (h.mem G.forest).all fun t => Heap.sizesExact h n t

/-! ## Lemmas on the comparison verifier -/

theorem stdEqual_of_length_le : ∀ (K c : List Nat), K.length ≤ c.length →
    stdEqual K c = some (decide (c.take K.length = K))
  | [], c, _ => by simp [stdEqual]
  | k :: ks, [], h => by simp at h
  | k :: ks, x :: xs, h => by
    have ih := stdEqual_of_length_le ks xs (by simpa using h)
    by_cases hk : k = x
    · subst hk
      simp [stdEqual, ih]
    · have hk2 : ¬ x = k := fun e => hk e.symm
      simp [stdEqual, hk, hk2]

theorem stdEqual_of_length_eq (K c : List Nat) (h : c.length = K.length) :
    stdEqual K c = some (decide (c = K)) := by
  rw [stdEqual_of_length_le K c (le_of_eq h.symm), ← h, List.take_length]

namespace ComparisonKeyVerifier

theorem checkKey_key (s s' : ComparisonKeyVerifier) (c : List Nat) (h : s.checkKey c = some s') :
    s'.key = s.key := by
  unfold checkKey at h
  split at h
  · simp at h
  · simp at h; subst h; rfl

theorem checkKey_of_length_eq (s : ComparisonKeyVerifier) (c : List Nat)
    (h : c.length = s.key.length) :
    s.checkKey c = some ⟨s.key, (s.count + 1) % U64, s.keyFound || decide (c = s.key)⟩ := by
  simp [checkKey, stdEqual_of_length_eq s.key c h]

theorem checkKeys_of_length_eq : ∀ (cs : List (List Nat)) (s : ComparisonKeyVerifier),
    (∀ c ∈ cs, c.length = s.key.length) →
    ∃ s', checkKeys s cs = some s' ∧ s'.key = s.key ∧
      s'.keyFound = (s.keyFound || decide (s.key ∈ cs))
  | [], s, _ => ⟨s, rfl, rfl, by simp⟩
  | c :: cs, s, h => by
    have hc := checkKey_of_length_eq s c (h c (List.mem_cons_self _ _))
    obtain ⟨s', h1, h2, h3⟩ := checkKeys_of_length_eq cs
      ⟨s.key, (s.count + 1) % U64, s.keyFound || decide (c = s.key)⟩
      (fun d hd => h d (List.mem_cons_of_mem _ hd))
    refine ⟨s', ?_, h2, ?_⟩
    · simp [checkKeys, hc, h1]
    · rw [h3]
      simp only [List.mem_cons, Bool.decide_or, Bool.or_assoc]
      congr 2
      simp [eq_comm]

theorem checkKey_isSome_of_length_le (s : ComparisonKeyVerifier) (c : List Nat)
    (h : s.key.length ≤ c.length) :
    s.checkKey c = some ⟨s.key, (s.count + 1) % U64,
      s.keyFound || decide (c.take s.key.length = s.key)⟩ := by
  simp [checkKey, stdEqual_of_length_le s.key c h]

theorem checkKey_count (s s' : ComparisonKeyVerifier) (c : List Nat) (h : s.checkKey c = some s') :
    s'.count = (s.count + 1) % U64 := by
  unfold checkKey at h
  split at h
  · simp at h
  · simp at h; subst h; rfl

theorem checkKey_keyFound_of_true (s s' : ComparisonKeyVerifier) (c : List Nat)
    (hs : s.keyFound = true) (h : s.checkKey c = some s') : s'.keyFound = true := by
  unfold checkKey at h
  split at h
  · simp at h
  · simp at h; subst h; simp [hs]

theorem checkKeys_keyFound_of_true : ∀ (cs : List (List Nat)) (s s' : ComparisonKeyVerifier),
    s.keyFound = true → checkKeys s cs = some s' → s'.keyFound = true
  | [], s, s', hs, h => by
    simp [checkKeys] at h; subst h; exact hs
  | c :: cs, s, s', hs, h => by
    simp only [checkKeys, Option.bind_eq_some] at h
    obtain ⟨m, hm, hrest⟩ := h
    exact checkKeys_keyFound_of_true cs m s' (checkKey_keyFound_of_true s m c hs hm) hrest

theorem checkKeys_count : ∀ (cs : List (List Nat)) (s s' : ComparisonKeyVerifier),
    s.count < U64 → checkKeys s cs = some s' → s'.count = (s.count + cs.length) % U64
  | [], s, s', hlt, h => by
    simp [checkKeys] at h; subst h
    simp [Nat.mod_eq_of_lt hlt]
  | c :: cs, s, s', _, h => by
    simp only [checkKeys, Option.bind_eq_some] at h
    obtain ⟨m, hm, hrest⟩ := h
    have hm1 := checkKey_count s m c hm
    have hmlt : m.count < U64 := by
      rw [hm1]; exact Nat.mod_lt _ (by decide)
    rw [checkKeys_count cs m s' hmlt hrest, hm1, List.length_cons, Nat.mod_add_mod]
    congr 1
    omega

/-- C8: for a verifier constructed with key `K` and any sequence of `checkKey` calls whose
candidates have exactly the byte length of `K`, all calls return and `success()` is true
afterwards iff one of the candidates checked was equal to `K`; a single `checkKey(c)` on a
verifier holding `K` sets the flag to (flag before) OR (`c` equals `K`). -/
theorem success_iff_matching_candidate (K : List Nat) (cs : List (List Nat))
    (hlen : ∀ c ∈ cs, c.length = K.length) :
    (∃ s, checkKeys (ctor K) cs = some s ∧ (s.success = true ↔ K ∈ cs)) ∧
    (∀ (s : ComparisonKeyVerifier) (c : List Nat), s.key = K → c.length = K.length →
      ∃ s', s.checkKey c = some s' ∧ s'.success = (s.success || decide (c = K))) := by
  constructor
  · obtain ⟨s, h1, _, h3⟩ := checkKeys_of_length_eq cs (ctor K) hlen
    refine ⟨s, h1, ?_⟩
    simp [success, h3, ctor]
  · intro s c hk hc
    subst hk
    exact ⟨_, checkKey_of_length_eq s c hc, rfl⟩

/-- Witness of C8: key `[3, 7]`, candidates `[3, 8]` then `[3, 7]`. -/
theorem success_iff_matching_candidate_witness :
    (∀ c ∈ [[3, 8], [3, 7]], c.length = [3, 7].length) ∧
    ∃ s, checkKeys (ctor [3, 7]) [[3, 8], [3, 7]] = some s ∧
      (s.success = true ↔ [3, 7] ∈ [[3, 8], [3, 7]]) :=
  ⟨by decide, (success_iff_matching_candidate [3, 7] [[3, 8], [3, 7]] (by decide)).1⟩

/-- C9: once `success()` is true it is still true after every `checkKey` call that returns
(and every call with a candidate at least as long as the key does return), after `flush()`,
after `correctKey()` and after any sequence of `checkKey` calls. -/
theorem success_sticky (s : ComparisonKeyVerifier) (hs : s.success = true) :
    (∀ c s', s.checkKey c = some s' → s'.success = true) ∧
    (∀ c, s.key.length ≤ c.length → ∃ s', s.checkKey c = some s' ∧ s'.success = true) ∧
    s.flush.success = true ∧
    s.correctKey.2.success = true ∧
    (∀ cs s', checkKeys s cs = some s' → s'.success = true) := by
  refine ⟨fun c s' h => checkKey_keyFound_of_true s s' c hs h, fun c hc => ?_, hs, ?_,
    fun cs s' h => checkKeys_keyFound_of_true cs s s' hs h⟩
  · exact ⟨_, checkKey_isSome_of_length_le s c hc,
      checkKey_keyFound_of_true s _ c hs (checkKey_isSome_of_length_le s c hc)⟩
  · unfold correctKey
    split <;> exact hs

/-- Witness of C9: a verifier for `[3, 7]` that has found its key, then checks `[3, 8]`. -/
theorem success_sticky_witness :
    (⟨[3, 7], 1, true⟩ : ComparisonKeyVerifier).success = true ∧
    ∃ s', (⟨[3, 7], 1, true⟩ : ComparisonKeyVerifier).checkKey [3, 8] = some s' ∧
      s'.success = true :=
  ⟨rfl, (success_sticky ⟨[3, 7], 1, true⟩ rfl).2.1 [3, 8] (by decide)⟩

/-- C10: a freshly constructed verifier reports `keysChecked() = 0`; every `checkKey` call that
returns (and every call with a candidate at least as long as the key does) increases
`keysChecked()` by one in 64-bit unsigned arithmetic, whether or not the candidate matches and
whether or not the key was already found; `flush()` leaves it unchanged; after a sequence of
calls on a fresh verifier `keysChecked()` is the number of calls modulo `2 ^ 64`. -/
theorem keysChecked_counts_calls (K : List Nat) :
    (ctor K).keysChecked = 0 ∧
    (∀ (s s' : ComparisonKeyVerifier) c, s.checkKey c = some s' →
      s'.keysChecked = (s.keysChecked + 1) % U64) ∧
    (∀ (s : ComparisonKeyVerifier) c, s.key.length ≤ c.length →
      ∃ s', s.checkKey c = some s' ∧ s'.keysChecked = (s.keysChecked + 1) % U64) ∧
    (∀ s : ComparisonKeyVerifier, s.flush.keysChecked = s.keysChecked) ∧
    (∀ cs s', checkKeys (ctor K) cs = some s' → s'.keysChecked = cs.length % U64) := by
  refine ⟨rfl, fun s s' c h => checkKey_count s s' c h, fun s c hc => ?_, fun _ => rfl,
    fun cs s' h => ?_⟩
  · exact ⟨_, checkKey_isSome_of_length_le s c hc, rfl⟩
  · have h0 : (ctor K).count < U64 := by
      show 0 < U64
      decide
    have := checkKeys_count cs (ctor K) s' h0 h
    simpa [keysChecked, ctor] using this

end ComparisonKeyVerifier

/-! ## Lemmas on `merge` -/

namespace CandidateKeyForest

theorem merge_of_size_pos (h : Heap) (F other : CandidateKeyForest) (v : Nat)
    (hpos : 0 < other.size) :
    merge h F other v =
      (h.pushBack F.forest ⟨v, other.getForest, other.size⟩,
        ⟨F.forest, (F.forestSize + other.size) % U64⟩) := by
  simp [merge, hpos]

theorem merge_of_size_zero (h : Heap) (F other : CandidateKeyForest) (v : Nat)
    (hzero : other.size = 0) : merge h F other v = (h, F) := by
  simp [merge, hzero]

theorem merge_forest (h : Heap) (F other : CandidateKeyForest) (v : Nat) :
    (merge h F other v).2.forest = F.forest := by
  unfold merge
  split <;> rfl

theorem merge_mem_of_ne (h : Heap) (F other : CandidateKeyForest) (v a : Nat)
    (ha : a ≠ F.forest) : (merge h F other v).1.mem a = h.mem a := by
  unfold merge
  split
  · simp [Heap.pushBack, ha]
  · rfl

theorem merge_next (h : Heap) (F other : CandidateKeyForest) (v : Nat) :
    (merge h F other v).1.next = h.next := by
  unfold merge
  split <;> rfl

theorem trees_merge (h : Heap) (F other : CandidateKeyForest) (v : Nat) :
    trees (merge h F other v).1 (merge h F other v).2 =
      if 0 < other.size then trees h F ++ [⟨v, other.getForest, other.size⟩] else trees h F := by
  unfold merge
  split
  · simp [trees, Heap.pushBack]
  · rfl

theorem size_merge (h : Heap) (F other : CandidateKeyForest) (v : Nat) :
    (merge h F other v).2.size =
      if 0 < other.size then (F.size + other.size) % U64 else F.size := by
  unfold merge
  split <;> rfl

theorem sumSizes_append (xs ys : List CandidateKeyTree) :
    sumSizes (xs ++ ys) = sumSizes xs + sumSizes ys := by
  simp [sumSizes]

theorem mergeAll_forest : ∀ (ops : List (CandidateKeyForest × Nat)) (h : Heap)
    (F : CandidateKeyForest), (mergeAll h F ops).2.forest = F.forest
  | [], _, _ => rfl
  | op :: ops, h, F => by
    rw [mergeAll, mergeAll_forest ops, merge_forest]

/-- The size of a forest after a sequence of merges, in terms of its size and trees before. -/
theorem mergeAll_size : ∀ (ops : List (CandidateKeyForest × Nat)) (h : Heap)
    (F : CandidateKeyForest) (base : Nat),
    F.size = (base + sumSizes (trees h F)) % U64 →
    (mergeAll h F ops).2.size =
      (base + sumSizes (trees (mergeAll h F ops).1 (mergeAll h F ops).2)) % U64
  | [], _, _, _, hF => hF
  | op :: ops, h, F, base, hF => by
    rw [mergeAll]
    apply mergeAll_size ops
    rw [size_merge, trees_merge]
    split
    · rw [sumSizes_append, hF]
      simp only [sumSizes, List.map_cons, List.map_nil, List.sum_cons, List.sum_nil, Nat.add_zero]
      rw [Nat.mod_add_mod, Nat.add_assoc]
    · exact hF

theorem trees_ctor (h : Heap) (s0 : Nat) : trees (ctor h s0).1 (ctor h s0).2 = [] := by
  simp [trees, ctor, Heap.makeShared]

/-- C2 as stated fails: the accept-state forest has size 1 and no trees, so its size is not the
sum of the sizes of its trees. -/
theorem size_invariant_fails_acceptStateSet :
    (acceptStateSet Heap.empty).2.size ≠
      sumSizes (trees (acceptStateSet Heap.empty).1 (acceptStateSet Heap.empty).2) := by
  decide

/-- C2, amended: for a forest built by the constructor with initial size `s0` (a `uint64_t`) and
any sequence of merges on it, `size()` equals `s0` plus the sum of the sizes of its trees, modulo
`2 ^ 64`; so for `emptySet()`, and the constructor with 0, `size()` is the sum of the sizes of
the trees whenever that sum is below `2 ^ 64`. -/
theorem size_invariant_amended (h : Heap) (s0 : Nat) (ops : List (CandidateKeyForest × Nat))
    (hs0 : s0 < U64) :
    (mergeAll (ctor h s0).1 (ctor h s0).2 ops).2.size =
      (s0 + sumSizes (trees (mergeAll (ctor h s0).1 (ctor h s0).2 ops).1
        (mergeAll (ctor h s0).1 (ctor h s0).2 ops).2)) % U64 ∧
    (s0 = 0 →
      sumSizes (trees (mergeAll (ctor h s0).1 (ctor h s0).2 ops).1
        (mergeAll (ctor h s0).1 (ctor h s0).2 ops).2) < U64 →
      (mergeAll (ctor h s0).1 (ctor h s0).2 ops).2.size =
        sumSizes (trees (mergeAll (ctor h s0).1 (ctor h s0).2 ops).1
          (mergeAll (ctor h s0).1 (ctor h s0).2 ops).2)) := by
  have key := mergeAll_size ops (ctor h s0).1 (ctor h s0).2 s0 (by
    rw [trees_ctor]
    simp [sumSizes, ctor, size, Nat.mod_eq_of_lt hs0])
  refine ⟨key, fun h0 hlt => ?_⟩
  subst h0
  rw [key, Nat.zero_add, Nat.mod_eq_of_lt hlt]

/-- Witness of the amended C2: `emptySet()` merged with a forest of size 3 and then with one
of size 0. -/
theorem size_invariant_amended_witness :
    0 < U64 ∧
    (mergeAll (ctor Heap.empty 0).1 (ctor Heap.empty 0).2 [(⟨5, 3⟩, 7), (⟨6, 0⟩, 9)]).2.size =
      (0 + sumSizes (trees
        (mergeAll (ctor Heap.empty 0).1 (ctor Heap.empty 0).2 [(⟨5, 3⟩, 7), (⟨6, 0⟩, 9)]).1
        (mergeAll (ctor Heap.empty 0).1 (ctor Heap.empty 0).2 [(⟨5, 3⟩, 7), (⟨6, 0⟩, 9)]).2))
        % U64 :=
  ⟨by decide, (size_invariant_amended Heap.empty 0 [(⟨5, 3⟩, 7), (⟨6, 0⟩, 9)] (by decide)).1⟩

/-- C3 as stated fails: merging a forest of size `2 ^ 64 - 1` into the accept-state forest
(size 1) leaves size 0, not `1 + (2 ^ 64 - 1)`. -/
theorem merge_size_not_exact :
    0 < (ctor (acceptStateSet Heap.empty).1 (2 ^ 64 - 1)).2.size ∧
    (merge (ctor (acceptStateSet Heap.empty).1 (2 ^ 64 - 1)).1 (acceptStateSet Heap.empty).2
        (ctor (acceptStateSet Heap.empty).1 (2 ^ 64 - 1)).2 5).2.size ≠
      (acceptStateSet Heap.empty).2.size +
        (ctor (acceptStateSet Heap.empty).1 (2 ^ 64 - 1)).2.size := by
  decide

/-- C3, amended: for `other.size() > 0`, `merge` makes the size `(F.size() + other.size())`
modulo `2 ^ 64`, which is `F.size() + other.size()` when that sum is below `2 ^ 64`; it appends
exactly one tree, which carries `v`, the pointer to the tree list of `other` and `other.size()`;
the tree list of `other` is as before unless `other` shares its vector with `F`. -/
theorem merge_size_amended (h : Heap) (F other : CandidateKeyForest) (v : Nat)
    (hpos : 0 < other.size) :
    (merge h F other v).2.size = (F.size + other.size) % U64 ∧
    (F.size + other.size < U64 → (merge h F other v).2.size = F.size + other.size) ∧
    trees (merge h F other v).1 (merge h F other v).2 =
      trees h F ++ [⟨v, other.getForest, other.size⟩] ∧
    (other.forest ≠ F.forest → trees (merge h F other v).1 other = trees h other) := by
  have hs := size_merge h F other v
  have ht := trees_merge h F other v
  simp only [hpos, if_true] at hs ht
  refine ⟨hs, fun hlt => ?_, ht, fun hne => merge_mem_of_ne h F other v other.forest hne⟩
  rw [hs, Nat.mod_eq_of_lt hlt]

/-- Witness of the amended C3: a forest of size 2 merged with one of size 3. -/
theorem merge_size_amended_witness :
    0 < (⟨1, 3⟩ : CandidateKeyForest).size ∧
    (merge Heap.empty ⟨0, 2⟩ ⟨1, 3⟩ 7).2.size = (2 + 3) % U64 :=
  ⟨by decide, (merge_size_amended Heap.empty ⟨0, 2⟩ ⟨1, 3⟩ 7 (by decide)).1⟩

/-- C4: `merge` is append-only. After `F.merge(other, v)` the tree list of `F` is the list
before or the list before followed by one new tree; the tree count does not decrease; `F` keeps
its vector; and no other vector of the heap is touched. -/
theorem merge_append_only (h : Heap) (F other : CandidateKeyForest) (v : Nat) :
    (trees (merge h F other v).1 (merge h F other v).2 = trees h F ∨
      ∃ t, trees (merge h F other v).1 (merge h F other v).2 = trees h F ++ [t]) ∧
    (trees h F).length ≤ (trees (merge h F other v).1 (merge h F other v).2).length ∧
    (merge h F other v).2.forest = F.forest ∧
    (∀ a, a ≠ F.forest → (merge h F other v).1.mem a = h.mem a) := by
  have ht := trees_merge h F other v
  refine ⟨?_, ?_, merge_forest h F other v, fun a ha => merge_mem_of_ne h F other v a ha⟩
  · by_cases hpos : 0 < other.size
    · right
      exact ⟨_, by simpa [hpos] using ht⟩
    · left
      simpa [hpos] using ht
  · rw [ht]
    split <;> simp

theorem mergeRepeat_of_size_zero (other : CandidateKeyForest) (v : Nat)
    (hzero : other.size = 0) : ∀ (n : Nat) (st : Heap × CandidateKeyForest),
    mergeRepeat other v n st = st
  | 0, _ => rfl
  | n + 1, st => by
    rw [mergeRepeat, merge_of_size_zero st.1 st.2 other v hzero]
    exact mergeRepeat_of_size_zero other v hzero n st

/-- C5: merging a forest with `other.size() = 0` changes nothing, however often it is
repeated: the heap (hence every tree list) and the forest (hence its size) stay as they were. -/
theorem merge_empty_idempotent (h : Heap) (F other : CandidateKeyForest) (v : Nat)
    (hzero : other.size = 0) (n : Nat) :
    mergeRepeat other v n (h, F) = (h, F) ∧
    (mergeRepeat other v n (h, F)).2.size = F.size ∧
    trees (mergeRepeat other v n (h, F)).1 (mergeRepeat other v n (h, F)).2 = trees h F ∧
    merge h F other v = (h, F) := by
  rw [mergeRepeat_of_size_zero other v hzero n (h, F)]
  exact ⟨rfl, rfl, rfl, merge_of_size_zero h F other v hzero⟩

/-- Witness of C5: the empty set merged three times into a forest with one tree. -/
theorem merge_empty_idempotent_witness :
    (emptySet Heap.empty).2.size = 0 ∧
    (mergeRepeat (emptySet Heap.empty).2 9 3
      (merge (emptySet Heap.empty).1 ⟨4, 0⟩ ⟨5, 2⟩ 7)).2.size = 2 :=
  ⟨rfl, (merge_empty_idempotent (merge (emptySet Heap.empty).1 ⟨4, 0⟩ ⟨5, 2⟩ 7).1
    (merge (emptySet Heap.empty).1 ⟨4, 0⟩ ⟨5, 2⟩ 7).2 (emptySet Heap.empty).2 9 rfl 3).2.1⟩

end CandidateKeyForest

/-! ## Lemmas on the traversal -/

theorem forEachUntil_inv {α β : Type} (stop : β → Bool) (body : α → β → Option β)
    (I : β → Prop)
    (hbody : ∀ a b b', stop b = false → I b → body a b = some b' → I b') :
    ∀ (l : List α) (b b' : β), I b → forEachUntil stop body l b = some b' → I b'
  | [], b, b', hI, h => by
    simp only [forEachUntil, Option.some.injEq] at h
    subst h
    exact hI
  | a :: l, b, b', hI, h => by
    unfold forEachUntil at h
    split at h
    · simp only [Option.some.injEq] at h
      subst h
      exact hI
    · rename_i hstop
      simp only [Option.bind_eq_some] at h
      obtain ⟨m, hm, hrest⟩ := h
      exact forEachUntil_inv stop body I hbody l m b'
        (hbody a b m (by simpa using hstop) hI hm) hrest

theorem foldlM_inv {α β : Type} (f : β → α → Option β) (I : β → Prop)
    (hf : ∀ b a b', I b → f b a = some b' → I b') :
    ∀ (l : List α) (b b' : β), I b → l.foldlM f b = some b' → I b'
  | [], b, b', hI, h => by
    simp only [List.foldlM_nil, pure, Option.some.injEq] at h
    subst h
    exact hI
  | a :: l, b, b', hI, h => by
    simp only [List.foldlM_cons, bind, Option.bind_eq_some] at h
    obtain ⟨m, hm, hrest⟩ := h
    exact foldlM_inv f I hf l m b' (hf b a m hI hm) hrest

/-- An invariant of the verifier that every `checkKey` call made in a state without success
keeps is kept by `buildAndVerifyKeys` when it is entered in a state without success. -/
theorem buildAndVerifyKeys_inv {σ : Type} (P : Params) (V : KeyVerifier σ) (I : σ → Prop)
    (hstep : ∀ s c s', V.success s = false → I s → V.checkKey s c = some s' → I s') :
    ∀ (fuel : Nat) (h : Heap) (t : CandidateKeyTree) (kv kb : List Nat) (d : Nat) (s : σ)
      (r : List Nat × List Nat × σ),
      V.success s = false → I s →
      t.buildAndVerifyKeys P V fuel h kv kb d s = some r → I r.2.2
  | 0, _, _, _, _, _, _, _, _, _, hr => by
    simp [CandidateKeyTree.buildAndVerifyKeys] at hr
  | fuel + 1, h, t, kv, kb, d, s, r, hs, hI, hr => by
    unfold CandidateKeyTree.buildAndVerifyKeys at hr
    split at hr
    · split at hr
      · simp only [Option.map_eq_some'] at hr
        obtain ⟨s', hc, rfl⟩ := hr
        exact hstep s _ s' hs hI hc
      · exact forEachUntil_inv (fun st => V.success st.2.2) _ (fun st => I st.2.2)
          (fun a b b' hstop hIb hb =>
            buildAndVerifyKeys_inv P V I hstep fuel h a b.1 b.2.1 (d + 1) b.2.2 b' hstop hIb hb)
          _ _ r hI hr
    · simp at hr

namespace CandidateKeyForest

/-- The invariant lemma for `verifyKeys`: it needs no assumption on the state at entry. -/
theorem verifyKeys_inv {σ : Type} (P : Params) (V : KeyVerifier σ) (I : σ → Prop)
    (hstep : ∀ s c s', V.success s = false → I s → V.checkKey s c = some s' → I s')
    (fuel : Nat) (h : Heap) (F : CandidateKeyForest) (s s' : σ) (hI : I s)
    (hrun : verifyKeys P V fuel h F s = some s') : I s' := by
  unfold verifyKeys at hrun
  refine foldlM_inv _ I (fun b a b' hIb hb => ?_) _ s s' hI hrun
  split at hb
  · rename_i hcond
    simp only [Option.map_eq_some'] at hb
    obtain ⟨r, hr, rfl⟩ := hb
    simp only [Bool.and_eq_true, Bool.not_eq_true', decide_eq_true_eq] at hcond
    exact buildAndVerifyKeys_inv P V I hstep fuel h a _ _ 0 b r hcond.2 hIb hr
  · simp only [Option.some.injEq] at hb
    subst hb
    exact hIb

/-- With `success()` true at entry `verifyKeys` returns at once, whatever the fuel. -/
theorem verifyKeys_of_success {σ : Type} (P : Params) (V : KeyVerifier σ) (fuel : Nat)
    (h : Heap) (F : CandidateKeyForest) (s : σ) (hs : V.success s = true) :
    verifyKeys P V fuel h F s = some s := by
  unfold verifyKeys
  induction trees h F with
  | nil => rfl
  | cons t ts ih =>
    simp only [List.foldlM_cons, hs, Bool.not_true, Bool.and_false, Bool.false_eq_true,
      if_false, bind, Option.some_bind]
    exact ih

end CandidateKeyForest

/-! ## The instrumented verifier -/

theorem forEachUntil_map {α β γ : Type} (f : β → γ) (stopB : β → Bool) (stopC : γ → Bool)
    (bodyB : α → β → Option β) (bodyC : α → γ → Option γ)
    (hstop : ∀ b, stopC (f b) = stopB b)
    (hbody : ∀ a b, (bodyB a b).map f = bodyC a (f b)) :
    ∀ (l : List α) (b : β),
      (forEachUntil stopB bodyB l b).map f = forEachUntil stopC bodyC l (f b)
  | [], b => rfl
  | a :: l, b => by
    unfold forEachUntil
    rw [hstop b]
    split
    · rfl
    · rw [← hbody a b]
      cases hb : bodyB a b with
      | none => rfl
      | some m =>
        simp only [Option.some_bind, Option.map_some']
        exact forEachUntil_map f stopB stopC bodyB bodyC hstop hbody l m

theorem foldlM_map {α β γ : Type} (f : β → γ) (g : β → α → Option β) (k : γ → α → Option γ)
    (hgk : ∀ b a, (g b a).map f = k (f b) a) :
    ∀ (l : List α) (b : β), (l.foldlM g b).map f = l.foldlM k (f b)
  | [], b => rfl
  | a :: l, b => by
    simp only [List.foldlM_cons, bind]
    rw [← hgk b a]
    cases hb : g b a with
    | none => rfl
    | some m =>
      simp only [Option.some_bind, Option.map_some']
      exact foldlM_map f g k hgk l m

/-- A verifier `W` whose states project onto those of `V`, compatibly with `success` and
`checkKey`, is traversed exactly like `V`. -/
theorem buildAndVerifyKeys_map {σ τ : Type} (P : Params) (V : KeyVerifier σ)
    (W : KeyVerifier τ) (π : τ → σ) (hs : ∀ t, V.success (π t) = W.success t)
    (hc : ∀ t c, (W.checkKey t c).map π = V.checkKey (π t) c) :
    ∀ (fuel : Nat) (h : Heap) (t : CandidateKeyTree) (kv kb : List Nat) (d : Nat) (w : τ),
      (t.buildAndVerifyKeys P W fuel h kv kb d w).map (fun r => (r.1, r.2.1, π r.2.2)) =
        t.buildAndVerifyKeys P V fuel h kv kb d (π w)
  | 0, _, _, _, _, _, _ => rfl
  | fuel + 1, h, t, kv, kb, d, w => by
    unfold CandidateKeyTree.buildAndVerifyKeys
    split
    · split
      · dsimp only
        rw [← hc]
        cases W.checkKey w (P.pack d t.fixedValue kb) <;> rfl
      · exact forEachUntil_map (fun r : List Nat × List Nat × τ => (r.1, r.2.1, π r.2.2))
          _ _ _ _ (fun b => hs b.2.2)
          (fun a b => buildAndVerifyKeys_map P V W π hs hc fuel h a b.1 b.2.1 (d + 1) b.2.2)
          _ _
    · rfl

namespace CandidateKeyForest

theorem verifyKeys_map {σ τ : Type} (P : Params) (V : KeyVerifier σ)
    (W : KeyVerifier τ) (π : τ → σ) (hs : ∀ t, V.success (π t) = W.success t)
    (hc : ∀ t c, (W.checkKey t c).map π = V.checkKey (π t) c)
    (fuel : Nat) (h : Heap) (F : CandidateKeyForest) (w : τ) :
    (verifyKeys P W fuel h F w).map π = verifyKeys P V fuel h F (π w) := by
  unfold verifyKeys
  refine foldlM_map π _ _ (fun b a => ?_) _ _
  rw [hs b]
  split
  · rw [← buildAndVerifyKeys_map P V W π hs hc]
    simp only [Option.map_map]
    rfl
  · rfl

end CandidateKeyForest

namespace KeyVerifier

theorem recording_success {σ : Type} (V : KeyVerifier σ) (t : σ × List (σ × List Nat)) :
    V.success t.1 = V.recording.success t := rfl

theorem recording_checkKey {σ : Type} (V : KeyVerifier σ) (t : σ × List (σ × List Nat))
    (c : List Nat) : (V.recording.checkKey t c).map Prod.fst = V.checkKey t.1 c := by
  show ((V.checkKey t.1 c).map fun next => (next, t.2 ++ [(t.1, c)])).map Prod.fst = _
  cases V.checkKey t.1 c <;> rfl

theorem LogFrom_snoc {σ : Type} (V : KeyVerifier σ) (c : List Nat) (t t' : σ)
    (hc : V.checkKey t c = some t') :
    ∀ (log : List (σ × List Nat)) (s : σ), V.LogFrom s log t → V.LogFrom s (log ++ [(t, c)]) t'
  | [], s, h => by
    simp only [LogFrom] at h
    subst h
    exact ⟨rfl, t', hc, rfl⟩
  | e :: rest, s, h => by
    obtain ⟨he, next, hn, hrest⟩ := h
    exact ⟨he, next, hn, LogFrom_snoc V c t t' hc rest next hrest⟩

/-- In a log whose calls were all made without success, a call that leads to success is the
last one and leads to the final state. -/
theorem LogFrom_last_of_success {σ : Type} (V : KeyVerifier σ) :
    ∀ (l1 : List (σ × List Nat)) (s : σ) (e : σ × List Nat) (l2 : List (σ × List Nat))
      (s' t : σ),
      V.LogFrom s (l1 ++ e :: l2) s' → (∀ x ∈ l1 ++ e :: l2, V.success x.1 = false) →
      V.checkKey e.1 e.2 = some t → V.success t = true → l2 = [] ∧ s' = t
  | [], s, e, l2, s', t, hlog, hall, hc, ht => by
    obtain ⟨he, next, hn, hrest⟩ := hlog
    rw [← he, hc] at hn
    simp only [Option.some.injEq] at hn
    subst hn
    cases l2 with
    | nil => exact ⟨rfl, hrest⟩
    | cons e2 l3 =>
      obtain ⟨he2, _⟩ := hrest
      have := hall e2 (by simp)
      rw [he2, ht] at this
      simp at this
  | e1 :: l1, s, e, l2, s', t, hlog, hall, hc, ht => by
    obtain ⟨_, next, _, hrest⟩ := hlog
    exact LogFrom_last_of_success V l1 next e l2 s' t hrest
      (fun x hx => hall x (List.mem_cons_of_mem _ hx)) hc ht

end KeyVerifier

/-! ## Termination of the traversal on well-formed forests -/

theorem forEachUntil_total {α β : Type} (stop : β → Bool) (body : α → β → Option β)
    (J : β → Prop) :
    ∀ (l : List α) (b : β), J b →
      (∀ a ∈ l, ∀ x, J x → ∃ y, body a x = some y ∧ J y) →
      ∃ y, forEachUntil stop body l b = some y ∧ J y
  | [], b, hJ, _ => ⟨b, rfl, hJ⟩
  | a :: l, b, hJ, hbody => by
    unfold forEachUntil
    split
    · exact ⟨b, rfl, hJ⟩
    · obtain ⟨m, hm, hJm⟩ := hbody a (List.mem_cons_self _ _) b hJ
      rw [hm]
      exact forEachUntil_total stop body J l m hJm
        (fun a' ha' => hbody a' (List.mem_cons_of_mem _ ha'))

theorem foldlM_total {α β : Type} (f : β → α → Option β) (J : β → Prop) :
    ∀ (l : List α) (b : β), J b →
      (∀ a ∈ l, ∀ x, J x → ∃ y, f x a = some y ∧ J y) →
      ∃ y, l.foldlM f b = some y ∧ J y
  | [], b, hJ, _ => ⟨b, rfl, hJ⟩
  | a :: l, b, hJ, hf => by
    obtain ⟨m, hm, hJm⟩ := hf a (List.mem_cons_self _ _) b hJ
    simp only [List.foldlM_cons, bind, hm, Option.some_bind]
    exact foldlM_total f J l m hJm (fun a' ha' => hf a' (List.mem_cons_of_mem _ ha'))

/-- On a tree whose child forest fits in `n` levels, entered at a depth that leaves `n` more
positions in the buffers, `buildAndVerifyKeys` returns when given more than `n` units of fuel,
provided `checkKey` is defined on candidates of the buffer length in all states of `J`. -/
theorem buildAndVerifyKeys_returns {σ : Type} (P : Params) (V : KeyVerifier σ) (J : σ → Prop)
    (len : Nat)
    (hV : ∀ x c, J x → c.length = len → ∃ y, V.checkKey x c = some y ∧ J y)
    (hP : ∀ d v b, (P.pack d v b).length = b.length) (h : Heap) :
    ∀ (n fuel : Nat) (t : CandidateKeyTree) (kv kb : List Nat) (d : Nat) (s : σ),
      h.fits n t.childForest = true → n < fuel → d + n < kv.length → kb.length = len → J s →
      ∃ r, t.buildAndVerifyKeys P V fuel h kv kb d s = some r ∧
        r.1.length = kv.length ∧ r.2.1.length = len ∧ J r.2.2 := by
  intro n
  induction n with
  | zero =>
    intro fuel t kv kb d s hfit hfuel hd hkb hJ
    obtain ⟨f, rfl⟩ : ∃ f, fuel = f + 1 := ⟨fuel - 1, by omega⟩
    have hmem : h.mem t.childForest = [] := by
      simpa [Heap.fits] using hfit
    obtain ⟨y, hy, hJy⟩ := hV s (P.pack d t.fixedValue kb) hJ (by rw [hP, hkb])
    refine ⟨(kv.set d t.fixedValue, P.pack d t.fixedValue kb, y), ?_, by simp, by
      simp [hP, hkb], hJy⟩
    unfold CandidateKeyTree.buildAndVerifyKeys
    rw [if_pos (by omega)]
    simp only [hmem, hy, Option.map_some']
  | succ m ih =>
    intro fuel t kv kb d s hfit hfuel hd hkb hJ
    obtain ⟨f, rfl⟩ : ∃ f, fuel = f + 1 := ⟨fuel - 1, by omega⟩
    unfold CandidateKeyTree.buildAndVerifyKeys
    rw [if_pos (by omega)]
    cases hmem : h.mem t.childForest with
    | nil =>
      obtain ⟨y, hy, hJy⟩ := hV s (P.pack d t.fixedValue kb) hJ (by rw [hP, hkb])
      exact ⟨(kv.set d t.fixedValue, P.pack d t.fixedValue kb, y), by
        simp only [hy, Option.map_some'], by simp, by simp [hP, hkb], hJy⟩
    | cons sib sibs =>
      have hall : ∀ t' ∈ sib :: sibs, h.fits m t'.childForest = true := by
        have := hfit
        simp only [Heap.fits, hmem, List.all_eq_true] at this
        exact this
      exact forEachUntil_total (fun st : List Nat × List Nat × σ => V.success st.2.2) _
        (fun r => r.1.length = kv.length ∧ r.2.1.length = len ∧ J r.2.2) (sib :: sibs)
        (kv.set d t.fixedValue, P.pack d t.fixedValue kb, s)
        ⟨by simp, by simp [hP, hkb], hJ⟩
        (fun t' ht' x hx => by
          obtain ⟨r, hr, h1, h2, h3⟩ := ih f t' x.1 x.2.1 (d + 1) x.2.2 (hall t' ht')
            (by omega) (by rw [hx.1]; omega) hx.2.1 hx.2.2
          exact ⟨r, hr, by rw [h1, hx.1], h2, h3⟩)

namespace CandidateKeyForest

/-- On a forest whose vector fits in `VecCount` levels `verifyKeys` returns when given at least
`VecCount` units of fuel, provided `checkKey` is defined on candidates of `byteCount` bytes in
all states of `J` and packing keeps the length of the byte buffer. -/
theorem verifyKeys_returns {σ : Type} (P : Params) (V : KeyVerifier σ) (J : σ → Prop)
    (hV : ∀ x c, J x → c.length = byteCount P → ∃ y, V.checkKey x c = some y ∧ J y)
    (hP : ∀ d v b, (P.pack d v b).length = b.length) (fuel : Nat) (h : Heap)
    (F : CandidateKeyForest) (s : σ) (hfit : h.fits P.VecCount F.forest = true)
    (hfuel : P.VecCount ≤ fuel) (hJ : J s) :
    ∃ s', verifyKeys P V fuel h F s = some s' ∧ J s' := by
  unfold verifyKeys
  refine foldlM_total _ J _ s hJ (fun t ht x hx => ?_)
  split
  · cases hn : P.VecCount with
    | zero =>
      rw [hn] at hfit
      simp only [Heap.fits, List.isEmpty_iff] at hfit
      rw [trees, hfit] at ht
      simp at ht
    | succ m =>
      rw [hn] at hfit hfuel
      have hall : h.fits m t.childForest = true := by
        simp only [Heap.fits, List.all_eq_true] at hfit
        exact hfit t ht
      obtain ⟨r, hr, _, _, h3⟩ := buildAndVerifyKeys_returns P V J (byteCount P) hV hP h m fuel t
        (List.replicate (m + 1) 0) (List.replicate (byteCount P) 0) 0 x hall (by omega)
        (by simp) (by simp) hx
      exact ⟨r.2.2, by rw [hr]; rfl, h3⟩
  · exact ⟨x, rfl, hx⟩

/-! ## Early exit of `verifyKeys` -/

/-- The log of an instrumented run: the final state comes from the initial one by the logged
calls, and each of them was made in a state without success. -/
theorem verifyKeys_recording_log {σ : Type} (P : Params) (V : KeyVerifier σ) (fuel : Nat)
    (h : Heap) (F : CandidateKeyForest) (s s' : σ) (log : List (σ × List Nat))
    (hrun : verifyKeys P V.recording fuel h F (s, []) = some (s', log)) :
    V.LogFrom s log s' ∧ ∀ e ∈ log, V.success e.1 = false :=
  verifyKeys_inv P V.recording
    (fun st => V.LogFrom s st.2 st.1 ∧ ∀ e ∈ st.2, V.success e.1 = false)
    (fun st c st' hst hI hc => by
      have hc' : (V.checkKey st.1 c).map (fun next => (next, st.2 ++ [(st.1, c)])) =
          some st' := hc
      simp only [Option.map_eq_some'] at hc'
      obtain ⟨next, hn, rfl⟩ := hc'
      refine ⟨KeyVerifier.LogFrom_snoc V c st.1 next hn st.2 s hI.1, fun e he => ?_⟩
      rcases List.mem_append.1 he with he | he
      · exact hI.2 e he
      · simp only [List.mem_singleton] at he
        subst he
        exact hst)
    fuel h F (s, []) (s', log) ⟨rfl, by simp⟩ hrun

/-- The instrumented run projects onto the plain run. -/
theorem verifyKeys_recording_fst {σ : Type} (P : Params) (V : KeyVerifier σ) (fuel : Nat)
    (h : Heap) (F : CandidateKeyForest) (s : σ) :
    (verifyKeys P V.recording fuel h F (s, [])).map Prod.fst = verifyKeys P V fuel h F s :=
  verifyKeys_map P V V.recording Prod.fst (fun t => V.recording_success t)
    (fun t c => V.recording_checkKey t c) fuel h F (s, [])

/-- C1: early exit of `verifyKeys`, for every forest, every heap and every verifier. The run is
observed through the instrumented verifier, which does not change it. If the run returns state
`s'` with call log `log`, then the verifier was changed by the logged `checkKey` calls and
nothing else, every call was made in a state where `success()` was false, and a call that made
`success()` true is the last call and leaves the final state, so `keysChecked()` does not move
after it. If `success()` is true at entry, `verifyKeys` returns at once with no call and the
verifier unchanged. On a forest nested at most `VecCount` deep, with a verifier defined on
candidates of `byteCount` bytes, the run does return once the fuel reaches `VecCount`. -/
theorem verifyKeys_early_exit {σ : Type} (P : Params) (V : KeyVerifier σ) (fuel : Nat)
    (h : Heap) (F : CandidateKeyForest) (s : σ) :
    (verifyKeys P V.recording fuel h F (s, [])).map Prod.fst = verifyKeys P V fuel h F s ∧
    (∀ s' log, verifyKeys P V.recording fuel h F (s, []) = some (s', log) →
      V.LogFrom s log s' ∧ (∀ e ∈ log, V.success e.1 = false) ∧
      (∀ l1 e l2 t, log = l1 ++ e :: l2 → V.checkKey e.1 e.2 = some t → V.success t = true →
        l2 = [] ∧ s' = t ∧ V.keysChecked s' = V.keysChecked t)) ∧
    (V.success s = true →
      verifyKeys P V.recording fuel h F (s, []) = some (s, []) ∧
      verifyKeys P V fuel h F s = some s) ∧
    (∀ J : σ → Prop, J s →
      (∀ x c, J x → c.length = byteCount P → ∃ y, V.checkKey x c = some y ∧ J y) →
      (∀ d v b, (P.pack d v b).length = b.length) →
      h.fits P.VecCount F.forest = true → P.VecCount ≤ fuel →
      ∃ r, verifyKeys P V.recording fuel h F (s, []) = some r) := by
  refine ⟨?_, ?_, ?_, ?_⟩
  · exact verifyKeys_recording_fst P V fuel h F s
  · intro s' log hrun
    have hinv := verifyKeys_recording_log P V fuel h F s s' log hrun
    refine ⟨hinv.1, hinv.2, fun l1 e l2 t hlog hc ht => ?_⟩
    subst hlog
    obtain ⟨h1, h2⟩ := KeyVerifier.LogFrom_last_of_success V l1 s e l2 s' t hinv.1 hinv.2 hc ht
    exact ⟨h1, h2, by rw [h2]⟩
  · intro hs
    exact ⟨verifyKeys_of_success P V.recording fuel h F (s, []) hs,
      verifyKeys_of_success P V fuel h F s hs⟩
  · intro J hJ hV hP hfit hfuel
    obtain ⟨r, hr, _⟩ := verifyKeys_returns P V.recording (fun st => J st.1)
      (fun x c hx hc => by
        obtain ⟨y, hy, hJy⟩ := hV x.1 c hx hc
        refine ⟨(y, x.2 ++ [(x.1, c)]), ?_, hJy⟩
        show (V.checkKey x.1 c).map (fun next => (next, x.2 ++ [(x.1, c)])) = _
        rw [hy]
        rfl)
      hP fuel h F (s, []) hfit hfuel hJ
    exact ⟨r, hr⟩

/-- Example for C1: three one-byte candidates `0xAA, 0xBB, 0xCC` and a verifier for `0xBB`.
The run makes two calls, both in states without success, and the second one ends it. -/
theorem verifyKeys_early_exit_witness :
    verifyKeys (params8 1) ComparisonKeyVerifier.iface.recording 1
        (singlePosition Heap.empty [0xAA, 0xBB, 0xCC]).1
        (singlePosition Heap.empty [0xAA, 0xBB, 0xCC]).2 (ComparisonKeyVerifier.ctor [0xBB], []) =
      some (⟨[0xBB], 2, true⟩,
        [(⟨[0xBB], 0, false⟩, [0xAA]), (⟨[0xBB], 1, false⟩, [0xBB])]) ∧
    ∀ e ∈ [((⟨[0xBB], 0, false⟩ : ComparisonKeyVerifier), [0xAA]), (⟨[0xBB], 1, false⟩, [0xBB])],
      ComparisonKeyVerifier.iface.success e.1 = false :=
  ⟨by decide, ((verifyKeys_early_exit (params8 1) ComparisonKeyVerifier.iface 1
    (singlePosition Heap.empty [0xAA, 0xBB, 0xCC]).1
    (singlePosition Heap.empty [0xAA, 0xBB, 0xCC]).2 (ComparisonKeyVerifier.ctor [0xBB])).2.1
    ⟨[0xBB], 2, true⟩ [(⟨[0xBB], 0, false⟩, [0xAA]), (⟨[0xBB], 1, false⟩, [0xBB])]
    (by decide)).2.1⟩

/-! ## Single-position forests -/

theorem mergeAll_mem_of_ne : ∀ (ops : List (CandidateKeyForest × Nat)) (h : Heap)
    (F : CandidateKeyForest) (a : Nat), a ≠ F.forest → (mergeAll h F ops).1.mem a = h.mem a
  | [], _, _, _, _ => rfl
  | op :: ops, h, F, a, ha => by
    rw [mergeAll, mergeAll_mem_of_ne ops _ _ a (by rw [merge_forest]; exact ha),
      merge_mem_of_ne h F op.1 op.2 a ha]

theorem mergeAll_trees_of_pos : ∀ (ops : List (CandidateKeyForest × Nat)) (h : Heap)
    (F : CandidateKeyForest), (∀ op ∈ ops, 0 < op.1.size) →
    trees (mergeAll h F ops).1 (mergeAll h F ops).2 =
      trees h F ++ ops.map fun op => ⟨op.2, op.1.getForest, op.1.size⟩
  | [], _, _, _ => by simp [mergeAll]
  | op :: ops, h, F, hpos => by
    rw [mergeAll, mergeAll_trees_of_pos ops _ _ (fun o ho => hpos o (List.mem_cons_of_mem _ ho)),
      trees_merge, if_pos (hpos op (List.mem_cons_self _ _))]
    simp

/-- The forest after `mergeAccepts`: the old trees followed by one leaf of size 1 per value,
each with an empty child forest; the forest keeps its vector and the other old vectors are as
before. -/
theorem mergeAccepts_spec : ∀ (vs : List Nat) (h : Heap) (F : CandidateKeyForest),
    F.forest < h.next →
    (mergeAccepts h F vs).2.forest = F.forest ∧
    (∃ ts, trees (mergeAccepts h F vs).1 (mergeAccepts h F vs).2 = trees h F ++ ts ∧
      ts.map (fun t => t.fixedValue) = vs ∧
      ∀ t ∈ ts, t.size = 1 ∧ (mergeAccepts h F vs).1.mem t.childForest = []) ∧
    (∀ a, a < h.next → a ≠ F.forest → (mergeAccepts h F vs).1.mem a = h.mem a)
  | [], h, F, _ => ⟨rfl, ⟨[], by simp [mergeAccepts], rfl, by simp⟩, fun _ _ _ => rfl⟩
  | v :: vs, h, F, hF => by
    have hne : h.next ≠ F.forest := by omega
    have hm : merge (acceptStateSet h).1 F (acceptStateSet h).2 v =
        ((acceptStateSet h).1.pushBack F.forest ⟨v, h.next, 1⟩,
          ⟨F.forest, (F.forestSize + 1) % U64⟩) :=
      merge_of_size_pos _ F _ v Nat.one_pos
    have hnext : (merge (acceptStateSet h).1 F (acceptStateSet h).2 v).1.next = h.next + 1 := by
      rw [merge_next]
      rfl
    have hforest : (merge (acceptStateSet h).1 F (acceptStateSet h).2 v).2.forest = F.forest :=
      merge_forest _ F _ v
    obtain ⟨h1, ⟨ts, h2, h3, h4⟩, h5⟩ := mergeAccepts_spec vs
      (merge (acceptStateSet h).1 F (acceptStateSet h).2 v).1
      (merge (acceptStateSet h).1 F (acceptStateSet h).2 v).2 (by rw [hnext, hforest]; omega)
    rw [hnext, hforest] at h5
    have hnew : (merge (acceptStateSet h).1 F (acceptStateSet h).2 v).1.mem h.next = [] := by
      rw [hm]
      simp [Heap.pushBack, acceptStateSet, ctor, Heap.makeShared, hne]
    have hold : trees (merge (acceptStateSet h).1 F (acceptStateSet h).2 v).1
        (merge (acceptStateSet h).1 F (acceptStateSet h).2 v).2 =
        trees h F ++ [⟨v, h.next, 1⟩] := by
      rw [hm]
      have hne' : ¬ F.forest = h.next := fun e => hne e.symm
      simp [trees, Heap.pushBack, acceptStateSet, ctor, Heap.makeShared, hne']
    refine ⟨by rw [mergeAccepts, h1, hforest], ⟨⟨v, h.next, 1⟩ :: ts, ?_, by simp [h3], ?_⟩, ?_⟩
    · rw [mergeAccepts, h2, hold]
      simp
    · intro t ht
      rw [mergeAccepts]
      rcases List.mem_cons.1 ht with rfl | ht
      · exact ⟨rfl, by rw [h5 h.next (by omega) hne]; exact hnew⟩
      · exact h4 t ht
    · intro a ha hane
      rw [mergeAccepts, h5 a (by omega) hane, hm]
      have : a ≠ h.next := by omega
      simp [Heap.pushBack, acceptStateSet, ctor, Heap.makeShared, hane, this]

/-- The trees of a single-position forest: one leaf of size 1 per value, in order. -/
theorem trees_singlePosition (h : Heap) (vs : List Nat) :
    ∃ ts, trees (singlePosition h vs).1 (singlePosition h vs).2 = ts ∧
      ts.map (fun t => t.fixedValue) = vs ∧
      ∀ t ∈ ts, t.size = 1 ∧ (singlePosition h vs).1.mem t.childForest = [] := by
  obtain ⟨_, ⟨ts, h2, h3, h4⟩, _⟩ := mergeAccepts_spec vs (emptySet h).1 (emptySet h).2
    (Nat.lt_succ_self h.next)
  refine ⟨ts, ?_, h3, h4⟩
  rw [singlePosition, h2]
  simp [emptySet, trees_ctor]

/-- A tree whose child forest is empty, entered at depth 0 with one-byte buffers: one
`checkKey` call on the byte of its value. -/
theorem buildAndVerifyKeys_leaf8 {σ : Type} (V : KeyVerifier σ) (fuel : Nat) (H : Heap)
    (t : CandidateKeyTree) (s : σ) (hfuel : 0 < fuel) (hmem : H.mem t.childForest = []) :
    (t.buildAndVerifyKeys (params8 1) V fuel H (List.replicate (params8 1).VecCount 0)
        (List.replicate (byteCount (params8 1)) 0) 0 s).map (fun r => r.2.2) =
      V.checkKey s [t.fixedValue % 256] := by
  obtain ⟨f, rfl⟩ : ∃ f, fuel = f + 1 := ⟨fuel - 1, by omega⟩
  have hb : byteCount (params8 1) = 1 := by decide
  unfold CandidateKeyTree.buildAndVerifyKeys
  rw [hb]
  simp only [hmem, params8, List.replicate, List.length_cons, List.length_nil, Nat.zero_add,
    Nat.lt_one_iff, if_true, pack8, List.set_cons_zero, Option.map_map]
  cases V.checkKey s [t.fixedValue % 256] <;> rfl

/-- The loop of `verifyKeys` over a list of leaves of size 1. -/
theorem foldlM_leaves8 {σ : Type} (V : KeyVerifier σ) (fuel : Nat) (H : Heap)
    (hfuel : 0 < fuel) : ∀ (ts : List CandidateKeyTree) (s : σ),
    (∀ t ∈ ts, t.size = 1 ∧ H.mem t.childForest = []) →
    ts.foldlM
      (fun v tree =>
        if tree.size > 0 && !V.success v then
          (tree.buildAndVerifyKeys (params8 1) V fuel H (List.replicate (params8 1).VecCount 0)
            (List.replicate (byteCount (params8 1)) 0) 0 v).map fun r => r.2.2
        else some v) s =
    (ts.map fun t => t.fixedValue).foldlM
      (fun st v => if V.success st then some st else V.checkKey st [v % 256]) s
  | [], _, _ => rfl
  | t :: ts, s, hts => by
    obtain ⟨hsize, hmem⟩ := hts t (List.mem_cons_self _ _)
    simp only [List.map_cons, List.foldlM_cons]
    have hstep : (if t.size > 0 && !V.success s then
          (t.buildAndVerifyKeys (params8 1) V fuel H (List.replicate (params8 1).VecCount 0)
            (List.replicate (byteCount (params8 1)) 0) 0 s).map fun r => r.2.2
        else some s) = (if V.success s then some s else V.checkKey s [t.fixedValue % 256]) := by
      rw [buildAndVerifyKeys_leaf8 V fuel H t s hfuel hmem, hsize]
      cases V.success s <;> simp
    rw [hstep]
    congr 1
    funext s1
    exact foldlM_leaves8 V fuel H hfuel ts s1 (fun t' ht' => hts t' (List.mem_cons_of_mem _ ht'))

theorem verifyKeys_singlePosition {σ : Type} (V : KeyVerifier σ) (fuel : Nat) (h : Heap)
    (vs : List Nat) (s : σ) (hfuel : 0 < fuel) :
    verifyKeys (params8 1) V fuel (singlePosition h vs).1 (singlePosition h vs).2 s =
      vs.foldlM (fun st v => if V.success st then some st else V.checkKey st [v % 256]) s := by
  obtain ⟨ts, h1, h2, h3⟩ := trees_singlePosition h vs
  unfold verifyKeys
  rw [h1, foldlM_leaves8 V fuel _ hfuel ts s h3, h2]

end CandidateKeyForest

namespace ComparisonKeyVerifier

/-- The final state of a logged run is the state after the logged calls. -/
theorem checkKeys_of_LogFrom : ∀ (log : List (ComparisonKeyVerifier × List Nat))
    (s s' : ComparisonKeyVerifier), iface.LogFrom s log s' →
    checkKeys s (log.map Prod.snd) = some s'
  | [], s, s', h => by
    simp only [KeyVerifier.LogFrom] at h
    subst h
    rfl
  | e :: rest, s, s', h => by
    obtain ⟨_, next, hn, hrest⟩ := h
    have hn' : s.checkKey e.2 = some next := hn
    simp only [List.map_cons, checkKeys, hn', Option.some_bind]
    exact checkKeys_of_LogFrom rest next s' hrest

/-- The loop of `verifyKeys` over one-byte leaves none of which is the key: one call each, no
success. -/
theorem foldlM_no_match (key : Nat) : ∀ (pre : List Nat) (s : ComparisonKeyVerifier)
    (log : List (ComparisonKeyVerifier × List Nat)),
    s.key = [key] → s.keyFound = false → key ∉ pre → (∀ v ∈ pre, v < 256) →
    ∃ s' log', pre.foldlM (fun st v => if iface.recording.success st then some st
        else iface.recording.checkKey st [v % 256]) (s, log) = some (s', log ++ log') ∧
      log'.map Prod.snd = pre.map (fun v => [v]) ∧ s'.key = [key] ∧ s'.keyFound = false
  | [], s, log, hk, hf, _, _ => ⟨s, [], by simp, rfl, hk, hf⟩
  | v :: pre, s, log, hk, hf, hnot, hlt => by
    have hv : v % 256 = v := Nat.mod_eq_of_lt (hlt v (List.mem_cons_self _ _))
    have hne : ¬ v = key := fun e => hnot (by simp [e])
    have hc : s.checkKey [v] = some ⟨[key], (s.count + 1) % U64, false⟩ := by
      rw [checkKey_of_length_eq s [v] (by simp [hk]), hk, hf]
      simp [hne]
    obtain ⟨s', log', hrun, hlog, hk', hf'⟩ := foldlM_no_match key pre
      ⟨[key], (s.count + 1) % U64, false⟩ (log ++ [(s, [v])]) rfl rfl
      (fun hmem => hnot (List.mem_cons_of_mem _ hmem))
      (fun w hw => hlt w (List.mem_cons_of_mem _ hw))
    refine ⟨s', (s, [v]) :: log', ?_, by simp [hlog], hk', hf'⟩
    have hs : iface.recording.success (s, log) = false := hf
    have hstep : iface.recording.checkKey (s, log) [v] =
        some (⟨[key], (s.count + 1) % U64, false⟩, log ++ [(s, [v])]) := by
      show (s.checkKey [v]).map (fun next => (next, log ++ [(s, [v])])) = _
      rw [hc]
      rfl
    simp only [List.foldlM_cons, hs, hv, hstep, bind, Option.some_bind, Bool.false_eq_true,
      if_false]
    rw [hrun]
    simp

/-- After success the loop of `verifyKeys` makes no call. -/
theorem foldlM_found {σ : Type} (V : KeyVerifier σ) : ∀ (post : List Nat) (st : σ),
    V.success st = true →
    post.foldlM (fun st v => if V.success st then some st else V.checkKey st [v % 256]) st =
      some st
  | [], _, _ => rfl
  | v :: post, st, hs => by
    simp only [List.foldlM_cons, hs, if_true, bind, Option.some_bind]
    exact foldlM_found V post st hs

end ComparisonKeyVerifier

theorem ComparisonKeyVerifier.checkKeys_key : ∀ (cs : List (List Nat))
    (s s' : ComparisonKeyVerifier), s.checkKeys cs = some s' → s'.key = s.key
  | [], s, s', h => by
    simp only [ComparisonKeyVerifier.checkKeys, Option.some.injEq] at h
    rw [h]
  | c :: cs, s, s', h => by
    simp only [ComparisonKeyVerifier.checkKeys, Option.bind_eq_some] at h
    obtain ⟨m, hm, hrest⟩ := h
    rw [ComparisonKeyVerifier.checkKeys_key cs m s' hrest,
      ComparisonKeyVerifier.checkKey_key s m c hm]

namespace CandidateKeyForest

open ComparisonKeyVerifier in
/-- From an instrumented run on a fresh comparison verifier: the plain run returns the same
verifier, its counter is the number of logged calls modulo `2 ^ 64`, and it holds the key. -/
theorem plain_of_recording_run (P : Params) (fuel : Nat) (H : Heap) (F : CandidateKeyForest)
    (K : List Nat) (s : ComparisonKeyVerifier) (log : List (ComparisonKeyVerifier × List Nat))
    (hrun : verifyKeys P iface.recording fuel H F (ComparisonKeyVerifier.ctor K, []) =
      some (s, log)) :
    verifyKeys P iface fuel H F (ComparisonKeyVerifier.ctor K) = some s ∧
    s.keysChecked = log.length % U64 ∧ s.key = K := by
  have hfst := verifyKeys_recording_fst P iface fuel H F (ComparisonKeyVerifier.ctor K)
  rw [hrun] at hfst
  have hlog := (verifyKeys_recording_log P iface fuel H F _ s log hrun).1
  have hck := checkKeys_of_LogFrom log _ s hlog
  have h0 : (ComparisonKeyVerifier.ctor K).count < U64 := by
    show 0 < U64
    decide
  have hcount := checkKeys_count _ _ s h0 hck
  exact ⟨hfst.symm, by simpa [keysChecked, ComparisonKeyVerifier.ctor] using hcount,
    checkKeys_key _ _ s hck⟩

open ComparisonKeyVerifier in
/-- C6: a single-position forest (`VecCount = 1`, `VecLenBits = 8`) built from `emptySet()` by
merging `acceptStateSet()` with the one-byte values `vs` in order, and a fresh comparison
verifier for the one-byte key `key`. If `key` first occurs in `vs` after the values `pre`, then
`verifyKeys` makes exactly `pre.length + 1` `checkKey` calls, on the values up to and including
that occurrence, in insertion order, and ends with `success()` true. If `key` does not occur in
`vs`, it makes exactly `vs.length` calls, on all values in order, and `success()` is false. -/
theorem verifyKeys_multi_candidate_order (h : Heap) (vs : List Nat) (key fuel : Nat)
    (hfuel : 0 < fuel) (hbytes : ∀ v ∈ vs, v < 256) :
    (∀ pre post, vs = pre ++ key :: post → key ∉ pre →
      ∃ s log,
        verifyKeys (params8 1) iface.recording fuel (singlePosition h vs).1
          (singlePosition h vs).2 (ComparisonKeyVerifier.ctor [key], []) = some (s, log) ∧
        verifyKeys (params8 1) iface fuel (singlePosition h vs).1 (singlePosition h vs).2
          (ComparisonKeyVerifier.ctor [key]) = some s ∧
        log.map Prod.snd = (pre ++ [key]).map (fun v => [v]) ∧
        log.length = pre.length + 1 ∧
        s.success = true ∧ s.keysChecked = (pre.length + 1) % U64) ∧
    (key ∉ vs →
      ∃ s log,
        verifyKeys (params8 1) iface.recording fuel (singlePosition h vs).1
          (singlePosition h vs).2 (ComparisonKeyVerifier.ctor [key], []) = some (s, log) ∧
        verifyKeys (params8 1) iface fuel (singlePosition h vs).1 (singlePosition h vs).2
          (ComparisonKeyVerifier.ctor [key]) = some s ∧
        log.map Prod.snd = vs.map (fun v => [v]) ∧
        log.length = vs.length ∧
        s.success = false ∧ s.keysChecked = vs.length % U64) := by
  constructor
  · intro pre post hvs hnot
    have hpre : ∀ v ∈ pre, v < 256 := fun v hv => hbytes v (by rw [hvs]; simp [hv])
    have hkey : key < 256 := hbytes key (by rw [hvs]; simp)
    obtain ⟨s1, log1, hrun1, hlog1, hk1, hf1⟩ :=
      foldlM_no_match key pre (ComparisonKeyVerifier.ctor [key]) [] rfl rfl hnot hpre
    have hc : s1.checkKey [key] = some ⟨[key], (s1.count + 1) % U64, true⟩ := by
      rw [checkKey_of_length_eq s1 [key] (by simp [hk1]), hk1, hf1]
      simp
    have hstep : iface.recording.checkKey (s1, [] ++ log1) [key] =
        some (⟨[key], (s1.count + 1) % U64, true⟩, [] ++ log1 ++ [(s1, [key])]) := by
      show (s1.checkKey [key]).map (fun next => (next, [] ++ log1 ++ [(s1, [key])])) = _
      rw [hc]
      rfl
    have hs1 : iface.recording.success (s1, [] ++ log1) = false := hf1
    have hrun : verifyKeys (params8 1) iface.recording fuel (singlePosition h vs).1
        (singlePosition h vs).2 (ComparisonKeyVerifier.ctor [key], []) =
        some (⟨[key], (s1.count + 1) % U64, true⟩, log1 ++ [(s1, [key])]) := by
      rw [verifyKeys_singlePosition _ fuel h vs _ hfuel, hvs, List.foldlM_append, hrun1]
      simp only [bind, Option.some_bind, List.foldlM_cons, hs1, Bool.false_eq_true, if_false,
        Nat.mod_eq_of_lt hkey, hstep]
      rw [foldlM_found iface.recording post
        (⟨[key], (s1.count + 1) % U64, true⟩, [] ++ log1 ++ [(s1, [key])]) rfl]
      simp
    have hlen : (log1 ++ [(s1, [key])]).length = pre.length + 1 := by
      have := congrArg List.length hlog1
      simp only [List.length_map] at this
      simp [this]
    obtain ⟨hplain, hcount, _⟩ := plain_of_recording_run _ fuel _ _ _ _ _ hrun
    exact ⟨_, _, hrun, hplain, by simp [hlog1], hlen, rfl, by rw [hcount, hlen]⟩
  · intro hnot
    obtain ⟨s1, log1, hrun1, hlog1, _, hf1⟩ :=
      foldlM_no_match key vs (ComparisonKeyVerifier.ctor [key]) [] rfl rfl hnot hbytes
    have hrun : verifyKeys (params8 1) iface.recording fuel (singlePosition h vs).1
        (singlePosition h vs).2 (ComparisonKeyVerifier.ctor [key], []) = some (s1, log1) := by
      rw [verifyKeys_singlePosition _ fuel h vs _ hfuel, hrun1]
      simp
    have hlen : log1.length = vs.length := by
      have := congrArg List.length hlog1
      simpa only [List.length_map] using this
    obtain ⟨hplain, hcount, _⟩ := plain_of_recording_run _ fuel _ _ _ _ _ hrun
    exact ⟨_, _, hrun, hplain, hlog1, hlen, hf1, by rw [hcount, hlen]⟩

open ComparisonKeyVerifier in
/-- Witness of C6: values `0xAA, 0xBB, 0xCC` and key `0xBB`: exactly two calls, on `0xAA` and
then `0xBB`. -/
theorem verifyKeys_multi_candidate_order_witness :
    (0 < 1 ∧ ∀ v ∈ [0xAA, 0xBB, 0xCC], v < 256) ∧
    ∃ s log,
      verifyKeys (params8 1) iface.recording 1 (singlePosition Heap.empty [0xAA, 0xBB, 0xCC]).1
        (singlePosition Heap.empty [0xAA, 0xBB, 0xCC]).2
        (ComparisonKeyVerifier.ctor [0xBB], []) = some (s, log) ∧
      verifyKeys (params8 1) iface 1 (singlePosition Heap.empty [0xAA, 0xBB, 0xCC]).1
        (singlePosition Heap.empty [0xAA, 0xBB, 0xCC]).2
        (ComparisonKeyVerifier.ctor [0xBB]) = some s ∧
      log.map Prod.snd = ([0xAA] ++ [0xBB]).map (fun v => [v]) ∧
      log.length = [0xAA].length + 1 ∧
      s.success = true ∧ s.keysChecked = ([0xAA].length + 1) % U64 :=
  ⟨⟨by decide, by decide⟩,
    (verifyKeys_multi_candidate_order Heap.empty [0xAA, 0xBB, 0xCC] 0xBB 1 (by decide)
      (by decide)).1 [0xAA] [0xCC] rfl (by decide)⟩

end CandidateKeyForest

/-! ## The chain of a single candidate -/

theorem packFrom_append : ∀ (vals pre rest : List Nat), rest.length = vals.length →
    packFrom pre.length vals (pre ++ rest) = pre ++ vals.map (fun v => v % 256)
  | [], pre, rest, h => by
    have : rest = [] := List.length_eq_zero.1 h
    simp [packFrom, this]
  | v :: vs, pre, [], h => by simp at h
  | v :: vs, pre, r :: rest, h => by
    have hset : pack8 pre.length v (pre ++ r :: rest) = (pre ++ [v % 256]) ++ rest := by
      simp [pack8]
    have hlen : (pre ++ [v % 256]).length = pre.length + 1 := by simp
    rw [packFrom, hset, ← hlen, packFrom_append vs (pre ++ [v % 256]) rest (by simpa using h)]
    simp

theorem packFrom_replicate (vals : List Nat) (hbytes : ∀ v ∈ vals, v < 256) :
    packFrom 0 vals (List.replicate vals.length 0) = vals := by
  have := packFrom_append vals [] (List.replicate vals.length 0) (by simp)
  simp only [List.length_nil, List.nil_append] at this
  rw [this]
  conv_rhs => rw [← List.map_id vals]
  exact List.map_congr_left (fun v hv => Nat.mod_eq_of_lt (hbytes v hv))

theorem Heap.holdsChainAt_congr (H H' : Heap) (base : Nat) : ∀ (ws : List Nat),
    (∀ a, a ≤ base + ws.length → H.mem a = H'.mem a) →
    H'.holdsChainAt base ws → H.holdsChainAt base ws
  | [], hagree, hc => by
    simp only [Heap.holdsChainAt] at hc ⊢
    rw [hagree base (by simp), hc]
  | w :: ws, hagree, hc => by
    obtain ⟨h1, h2⟩ := hc
    refine ⟨?_, Heap.holdsChainAt_congr H H' base ws
      (fun a ha => hagree a (by simp only [List.length_cons]; omega)) h2⟩
    rw [hagree _ (by simp only [List.length_cons]; omega), h1]

/-- The traversal of the outermost tree of a chain: one `checkKey` call, on the buffer with the
values of the chain packed from position `d` on. -/
theorem buildAndVerifyKeys_chain {σ : Type} (n : Nat) (V : KeyVerifier σ) (H : Heap)
    (base : Nat) : ∀ (ws : List Nat) (v sz fuel : Nat) (kv kb : List Nat) (d : Nat) (s : σ),
    H.holdsChainAt base ws → ws.length < fuel → d + ws.length < kv.length →
    V.success s = false →
    ∃ kv', (⟨v, base + ws.length, sz⟩ : CandidateKeyTree).buildAndVerifyKeys (params8 n) V
        fuel H kv kb d s =
      (V.checkKey s (packFrom d (v :: ws) kb)).map
        (fun r => (kv', packFrom d (v :: ws) kb, r))
  | [], v, sz, fuel, kv, kb, d, s, hc, hfuel, hd, _ => by
    obtain ⟨f, rfl⟩ : ∃ f, fuel = f + 1 := ⟨fuel - 1, by omega⟩
    have hmem : H.mem (base + 0) = [] := hc
    refine ⟨kv.set d v, ?_⟩
    unfold CandidateKeyTree.buildAndVerifyKeys
    rw [if_pos (by simpa using hd)]
    simp only [List.length_nil, hmem, packFrom, params8]
  | w :: ws, v, sz, fuel, kv, kb, d, s, hc, hfuel, hd, hs => by
    obtain ⟨f, rfl⟩ : ∃ f, fuel = f + 1 := ⟨fuel - 1, by omega⟩
    obtain ⟨hmem, hrest⟩ := hc
    simp only [List.length_cons] at hfuel hd
    obtain ⟨kv', hkv'⟩ := buildAndVerifyKeys_chain n V H base ws w 1 f (kv.set d v)
      (pack8 d v kb) (d + 1) s hrest (by omega) (by simp only [List.length_set]; omega) hs
    have hmem' : H.mem (base + (w :: ws).length) = [⟨w, base + ws.length, 1⟩] := hmem
    have hpack : (params8 n).pack = pack8 := rfl
    refine ⟨kv', ?_⟩
    unfold CandidateKeyTree.buildAndVerifyKeys
    rw [if_pos (by omega)]
    simp only [hmem', forEachUntil, hs, Bool.false_eq_true, if_false, hpack, hkv', packFrom]
    cases V.checkKey s (packFrom (d + 1 + 1) ws (pack8 (d + 1) w (pack8 d v kb))) <;> rfl

namespace CandidateKeyForest

theorem chain_spec (h : Heap) : ∀ (vs : List Nat),
    (chain h vs).2 = ⟨h.next + vs.length, 1⟩ ∧
    (chain h vs).1.next = h.next + vs.length + 1 ∧
    (chain h vs).1.holdsChainAt h.next vs
  | [] => by
    simp [chain, acceptStateSet, ctor, Heap.makeShared, Heap.holdsChainAt]
  | v :: vs => by
    obtain ⟨hF, hnext, hchain⟩ := chain_spec h vs
    have hpos : 0 < (chain h vs).2.size := by
      rw [hF]
      exact Nat.one_pos
    have hmerge := merge_of_size_pos (emptySet (chain h vs).1).1 (emptySet (chain h vs).1).2
      (chain h vs).2 v hpos
    have hE : (emptySet (chain h vs).1).2 = ⟨h.next + vs.length + 1, 0⟩ := by
      simp [emptySet, ctor, Heap.makeShared, hnext]
    refine ⟨?_, ?_, ?_, ?_⟩
    · rw [chain, hmerge, hE, hF]
      simp [size, U64]
      omega
    · rw [chain, hmerge]
      simp [Heap.pushBack, emptySet, ctor, Heap.makeShared, hnext]
      omega
    · rw [chain, hmerge, hE, hF]
      simp [Heap.pushBack, emptySet, ctor, Heap.makeShared, hnext, getForest, size]
    · apply Heap.holdsChainAt_congr _ (chain h vs).1 h.next vs _ hchain
      intro a ha
      rw [chain, hmerge, hE]
      have hne : a ≠ h.next + vs.length + 1 := by omega
      simp [Heap.pushBack, emptySet, ctor, Heap.makeShared, hnext, hne]

theorem byteCount_params8 (n : Nat) (hn : n * 8 < U32) : byteCount (params8 n) = n := by
  have h1 : n * 8 % U32 = n * 8 := Nat.mod_eq_of_lt hn
  simp [byteCount, params8, h1]

/-- The run of `verifyKeys` on the chain of a single candidate: one `checkKey` call on the
bytes of the candidate. -/
theorem verifyKeys_chain {σ : Type} (V : KeyVerifier σ) (h : Heap) (v : Nat) (ws : List Nat)
    (fuel : Nat) (s : σ) (hbytes : ∀ x ∈ v :: ws, x < 256) (hbits : (v :: ws).length * 8 < U32)
    (hfuel : (v :: ws).length ≤ fuel) (hs : V.success s = false) :
    verifyKeys (params8 (v :: ws).length) V fuel (chain h (v :: ws)).1 (chain h (v :: ws)).2 s =
      V.checkKey s (v :: ws) := by
  obtain ⟨hF, _, hmem, hrest⟩ := chain_spec h (v :: ws)
  have hmem' : (chain h (v :: ws)).1.mem (h.next + (v :: ws).length) =
      [⟨v, h.next + ws.length, 1⟩] := hmem
  obtain ⟨kv', hkv'⟩ := buildAndVerifyKeys_chain (v :: ws).length V (chain h (v :: ws)).1 h.next
    ws v 1 fuel (List.replicate (params8 (v :: ws).length).VecCount 0)
    (List.replicate (byteCount (params8 (v :: ws).length)) 0) 0 s hrest
    (by simp only [List.length_cons] at hfuel; omega) (by simp [params8]) hs
  rw [byteCount_params8 _ hbits, packFrom_replicate (v :: ws) hbytes] at hkv'
  unfold verifyKeys
  rw [trees, hF]
  simp only [hmem', List.foldlM_cons, List.foldlM_nil, hs, byteCount_params8 _ hbits]
  have hsz : (⟨v, h.next + ws.length, 1⟩ : CandidateKeyTree).size > 0 := Nat.one_pos
  simp only [hsz, decide_True, Bool.not_false, Bool.and_self, if_true, hkv', bind, pure]
  cases V.checkKey s (v :: ws) <;> rfl

open ComparisonKeyVerifier in
/-- C7: round trip of a single candidate with `VecLenBits = 8`. For the chain of merges of the
byte values `vs = [v_0, ..., v_{n-1}]` (`n = VecCount ≥ 1`) and a fresh comparison verifier for
a key `K` of `n` bytes, `verifyKeys` returns after exactly one `checkKey` call, on the bytes
`vs`; afterwards `keysChecked()` is 1, `success()` is true exactly when `K = vs`, and in that
case `correctKey()` returns `K`. -/
theorem verifyKeys_single_candidate (h : Heap) (vs K : List Nat) (fuel : Nat) (hne : vs ≠ [])
    (hbytes : ∀ v ∈ vs, v < 256) (hbits : vs.length * 8 < U32) (hK : K.length = vs.length)
    (hfuel : vs.length ≤ fuel) :
    ∃ s log,
      verifyKeys (params8 vs.length) iface.recording fuel (chain h vs).1 (chain h vs).2
        (ComparisonKeyVerifier.ctor K, []) = some (s, log) ∧
      verifyKeys (params8 vs.length) iface fuel (chain h vs).1 (chain h vs).2
        (ComparisonKeyVerifier.ctor K) = some s ∧
      log.map Prod.snd = [vs] ∧
      s.keysChecked = 1 ∧
      (s.success = true ↔ K = vs) ∧
      (K = vs → s.correctKey.1 = Except.ok K) := by
  obtain ⟨v, ws, rfl⟩ := List.exists_cons_of_ne_nil hne
  have hc : (ComparisonKeyVerifier.ctor K).checkKey (v :: ws) =
      some ⟨K, 1, decide (v :: ws = K)⟩ := by
    rw [checkKey_of_length_eq _ _ hK.symm]
    simp [ComparisonKeyVerifier.ctor, U64]
  have hrun : verifyKeys (params8 (v :: ws).length) iface.recording fuel (chain h (v :: ws)).1
      (chain h (v :: ws)).2 (ComparisonKeyVerifier.ctor K, []) =
      some (⟨K, 1, decide (v :: ws = K)⟩, [(ComparisonKeyVerifier.ctor K, v :: ws)]) := by
    rw [verifyKeys_chain iface.recording h v ws fuel (ComparisonKeyVerifier.ctor K, []) hbytes
      hbits hfuel rfl]
    show ((ComparisonKeyVerifier.ctor K).checkKey (v :: ws)).map _ = _
    rw [hc]
    rfl
  obtain ⟨hplain, _, _⟩ := plain_of_recording_run _ fuel _ _ _ _ _ hrun
  refine ⟨_, _, hrun, hplain, rfl, rfl, ?_, ?_⟩
  · simp [success, eq_comm]
  · intro hEq
    simp [correctKey, hEq]

open ComparisonKeyVerifier in
/-- Witness of C7: the values `0x03, 0x07`; with key `[0x03, 0x07]` the run succeeds after one
check and `correctKey()` returns the key, with key `[0x03, 0x08]` it ends without success after
one check. -/
theorem verifyKeys_single_candidate_witness :
    ([0x03, 0x07] ≠ [] ∧ (∀ v ∈ [0x03, 0x07], v < 256) ∧ [0x03, 0x07].length * 8 < U32 ∧
      [0x03, 0x07].length = [0x03, 0x07].length ∧ [0x03, 0x07].length ≤ 2) ∧
    (∃ s log,
      verifyKeys (params8 [0x03, 0x07].length) iface.recording 2 (chain Heap.empty [0x03, 0x07]).1
        (chain Heap.empty [0x03, 0x07]).2 (ComparisonKeyVerifier.ctor [0x03, 0x07], []) =
        some (s, log) ∧
      verifyKeys (params8 [0x03, 0x07].length) iface 2 (chain Heap.empty [0x03, 0x07]).1
        (chain Heap.empty [0x03, 0x07]).2 (ComparisonKeyVerifier.ctor [0x03, 0x07]) = some s ∧
      log.map Prod.snd = [[0x03, 0x07]] ∧
      s.keysChecked = 1 ∧
      (s.success = true ↔ [0x03, 0x07] = [0x03, 0x07]) ∧
      ([0x03, 0x07] = [0x03, 0x07] → s.correctKey.1 = Except.ok [0x03, 0x07])) ∧
    (∃ s log,
      verifyKeys (params8 [0x03, 0x07].length) iface.recording 2 (chain Heap.empty [0x03, 0x07]).1
        (chain Heap.empty [0x03, 0x07]).2 (ComparisonKeyVerifier.ctor [0x03, 0x08], []) =
        some (s, log) ∧
      verifyKeys (params8 [0x03, 0x07].length) iface 2 (chain Heap.empty [0x03, 0x07]).1
        (chain Heap.empty [0x03, 0x07]).2 (ComparisonKeyVerifier.ctor [0x03, 0x08]) = some s ∧
      log.map Prod.snd = [[0x03, 0x07]] ∧
      s.keysChecked = 1 ∧
      (s.success = true ↔ [0x03, 0x08] = [0x03, 0x07]) ∧
      ([0x03, 0x08] = [0x03, 0x07] → s.correctKey.1 = Except.ok [0x03, 0x08])) :=
  ⟨⟨by decide, by decide, by decide, by decide, by decide⟩,
    verifyKeys_single_candidate Heap.empty [0x03, 0x07] [0x03, 0x07] 2 (by decide) (by decide)
      (by decide) (by decide) (by decide),
    verifyKeys_single_candidate Heap.empty [0x03, 0x07] [0x03, 0x08] 2 (by decide) (by decide)
      (by decide) (by decide) (by decide)⟩

end CandidateKeyForest

/-! ## `correctKey`, prefix comparison and the factory -/

namespace ComparisonKeyVerifier

/-- C11: `correctKey()` fails with the error "Key has not been found" if and only if
`success()` is false, in particular on a fresh verifier; whenever `success()` is true it returns
the stored key, which after any sequence of `checkKey` calls on a verifier constructed with `K`
is `K` itself, e.g. after one matching `checkKey`; in both cases the verifier, hence
`keysChecked()` and `success()`, is left as it was. -/
theorem correctKey_iff_success (K : List Nat) :
    (∀ s : ComparisonKeyVerifier,
      (s.correctKey.1 = Except.error "Key has not been found" ↔ s.success = false) ∧
      (s.success = true → s.correctKey.1 = Except.ok s.key) ∧
      s.correctKey.2 = s ∧
      s.correctKey.2.keysChecked = s.keysChecked ∧ s.correctKey.2.success = s.success) ∧
    (ctor K).correctKey.1 = Except.error "Key has not been found" ∧
    (∀ cs s, checkKeys (ctor K) cs = some s → s.success = true →
      s.correctKey.1 = Except.ok K) ∧
    (∃ s, (ctor K).checkKey K = some s ∧ s.success = true ∧ s.correctKey.1 = Except.ok K) := by
  have hall : ∀ s : ComparisonKeyVerifier,
      (s.correctKey.1 = Except.error "Key has not been found" ↔ s.success = false) ∧
      (s.success = true → s.correctKey.1 = Except.ok s.key) ∧
      s.correctKey.2 = s := by
    intro s
    unfold correctKey success
    cases s.keyFound <;> simp
  refine ⟨fun s => ⟨(hall s).1, (hall s).2.1, (hall s).2.2, by rw [(hall s).2.2],
    by rw [(hall s).2.2]⟩, rfl, fun cs s hrun hs => ?_, ?_⟩
  · rw [(hall s).2.1 hs, checkKeys_key cs _ s hrun]
    rfl
  · have hc := checkKey_of_length_eq (ctor K) K rfl
    refine ⟨_, hc, by simp [success, ctor], ?_⟩
    simp [correctKey, ctor]

/-- C20: `checkKey` compares only the first `len(K)` bytes of the candidate. For every candidate
at least as long as the key the call returns and counts as a match iff the candidate's first
`len(K)` bytes are `K`; so a candidate `K ++ extra` with `extra` not empty sets `success()` to
true on a fresh verifier although it is not equal to `K`. -/
theorem checkKey_compares_key_length (s : ComparisonKeyVerifier) (c : List Nat)
    (hlen : s.key.length ≤ c.length) :
    s.checkKey c = some ⟨s.key, (s.count + 1) % U64,
      s.keyFound || decide (c.take s.key.length = s.key)⟩ ∧
    (∀ K extra : List Nat, extra ≠ [] →
      K ++ extra ≠ K ∧
      ∃ s', (ctor K).checkKey (K ++ extra) = some s' ∧ s'.success = true) := by
  refine ⟨checkKey_isSome_of_length_le s c hlen, fun K extra hne => ⟨?_, ?_⟩⟩
  · intro h
    exact hne (List.append_right_eq_self.1 h)
  · refine ⟨_, checkKey_isSome_of_length_le (ctor K) (K ++ extra) (by simp [ctor]), ?_⟩
    simp [success, ctor]

/-- Witness of C20: key `[3, 7]` and the three-byte candidate `[3, 7, 9]`. -/
theorem checkKey_compares_key_length_witness :
    (ctor [3, 7]).key.length ≤ [3, 7, 9].length ∧
    (ctor [3, 7]).checkKey [3, 7, 9] = some ⟨(ctor [3, 7]).key, ((ctor [3, 7]).count + 1) % U64,
      (ctor [3, 7]).keyFound || decide ([3, 7, 9].take (ctor [3, 7]).key.length =
        (ctor [3, 7]).key)⟩ :=
  ⟨by decide, (checkKey_compares_key_length (ctor [3, 7]) [3, 7, 9] (by decide)).1⟩

end ComparisonKeyVerifier

namespace ComparisonKeyVerifierFactory

end ComparisonKeyVerifierFactory

/-! ## Empty inputs, sentinels and the running total -/

namespace CandidateKeyForest

/-- C15: no oracle calls on empty input. `verifyKeys` on a forest with no trees, and
`verifyMergeCandidates` with an `other` of size 0, return normally whatever the fuel, with the
verifier (hence `keysChecked()` and `success()`) and the call log exactly as they were. -/
theorem no_calls_on_empty_input {σ : Type} (P : Params) (V : KeyVerifier σ) (fuel : Nat)
    (h : Heap) (F other : CandidateKeyForest) (v : Nat) (s : σ) (log : List (σ × List Nat)) :
    (trees h F = [] →
      verifyKeys P V fuel h F s = some s ∧
      verifyKeys P V.recording fuel h F (s, log) = some (s, log)) ∧
    (other.size = 0 →
      verifyMergeCandidates P V fuel h F s other v = some s ∧
      verifyMergeCandidates P V.recording fuel h F (s, log) other v = some (s, log)) := by
  constructor
  · intro hF
    simp [verifyKeys, hF]
  · intro hz
    simp [verifyMergeCandidates, hz]

/-- C16: the sentinels. `emptySet()` has size 0 and no trees; `acceptStateSet()` and
`rejectStateSet()` have size 1 and no trees; `rejectStateSet()` is `acceptStateSet()`, so the
two give the same `size()`, the same result when merged into any forest and the same
`verifyKeys` run, which makes no call. -/
theorem sentinel_sizes (h : Heap) :
    ((emptySet h).2.size = 0 ∧ trees (emptySet h).1 (emptySet h).2 = []) ∧
    ((acceptStateSet h).2.size = 1 ∧ trees (acceptStateSet h).1 (acceptStateSet h).2 = []) ∧
    ((rejectStateSet h).2.size = 1 ∧ trees (rejectStateSet h).1 (rejectStateSet h).2 = []) ∧
    rejectStateSet h = acceptStateSet h ∧
    (∀ (F : CandidateKeyForest) (v : Nat),
      merge (rejectStateSet h).1 F (rejectStateSet h).2 v =
        merge (acceptStateSet h).1 F (acceptStateSet h).2 v) ∧
    (∀ {σ : Type} (P : Params) (V : KeyVerifier σ) (fuel : Nat) (s : σ),
      verifyKeys P V fuel (rejectStateSet h).1 (rejectStateSet h).2 s =
        verifyKeys P V fuel (acceptStateSet h).1 (acceptStateSet h).2 s ∧
      verifyKeys P V fuel (acceptStateSet h).1 (acceptStateSet h).2 s = some s) := by
  have ht : ∀ s0, trees (ctor h s0).1 (ctor h s0).2 = [] := trees_ctor h
  refine ⟨⟨rfl, ht 0⟩, ⟨rfl, ht 1⟩, ⟨rfl, ht 1⟩, rfl, fun _ _ => rfl, fun P V fuel s => ⟨rfl, ?_⟩⟩
  have h1 : trees (acceptStateSet h).1 (acceptStateSet h).2 = [] := ht 1
  simp [verifyKeys, h1]

/-- The trees of a forest after a sequence of merges: one new tree for every merge whose
`other` has nonzero size. -/
theorem mergeAll_trees : ∀ (ops : List (CandidateKeyForest × Nat)) (h : Heap)
    (F : CandidateKeyForest),
    trees (mergeAll h F ops).1 (mergeAll h F ops).2 =
      trees h F ++ (ops.filter fun op => decide (0 < op.1.size)).map
        fun op => ⟨op.2, op.1.getForest, op.1.size⟩
  | [], _, _ => by simp [mergeAll]
  | op :: ops, h, F => by
    rw [mergeAll, mergeAll_trees ops, trees_merge]
    by_cases hpos : 0 < op.1.size
    · simp [hpos, List.filter_cons]
    · simp [hpos, List.filter_cons]

/-- C19: for a forest constructed with initial size `s0` (a `uint64_t`) and any sequence of
merges on it, `size()` is `s0` plus the sum of `other.size()` over the merges performed with
`other.size() > 0`, modulo `2 ^ 64`, and the tree count is the number of those merges; `size()`
equals the sum of the captured sizes of the trees exactly when `s0 = 0` and that sum is below
`2 ^ 64`; and a forest with a tree can have size 0 after wrap-around, in which case merging it
into another forest does nothing. -/
theorem size_modular (h : Heap) (s0 : Nat) (ops : List (CandidateKeyForest × Nat))
    (hs0 : s0 < U64) :
    (mergeAll (ctor h s0).1 (ctor h s0).2 ops).2.size =
      (s0 + ((ops.filter fun op => decide (0 < op.1.size)).map fun op => op.1.size).sum)
        % U64 ∧
    (trees (mergeAll (ctor h s0).1 (ctor h s0).2 ops).1
        (mergeAll (ctor h s0).1 (ctor h s0).2 ops).2).length =
      (ops.filter fun op => decide (0 < op.1.size)).length ∧
    ((mergeAll (ctor h s0).1 (ctor h s0).2 ops).2.size =
        sumSizes (trees (mergeAll (ctor h s0).1 (ctor h s0).2 ops).1
          (mergeAll (ctor h s0).1 (ctor h s0).2 ops).2) ↔
      s0 = 0 ∧ sumSizes (trees (mergeAll (ctor h s0).1 (ctor h s0).2 ops).1
        (mergeAll (ctor h s0).1 (ctor h s0).2 ops).2) < U64) ∧
    (∃ (W : Heap × CandidateKeyForest), trees W.1 W.2 ≠ [] ∧ W.2.size = 0 ∧
      ∀ (g : Heap) (G : CandidateKeyForest) (v : Nat), merge g G W.2 v = (g, G)) := by
  have htrees := mergeAll_trees ops (ctor h s0).1 (ctor h s0).2
  rw [trees_ctor, List.nil_append] at htrees
  have hsize := mergeAll_size ops (ctor h s0).1 (ctor h s0).2 s0 (by
    rw [trees_ctor]
    simp [sumSizes, ctor, size, Nat.mod_eq_of_lt hs0])
  have hsum : sumSizes (trees (mergeAll (ctor h s0).1 (ctor h s0).2 ops).1
      (mergeAll (ctor h s0).1 (ctor h s0).2 ops).2) =
      ((ops.filter fun op => decide (0 < op.1.size)).map fun op => op.1.size).sum := by
    rw [htrees]
    simp [sumSizes, Function.comp_def]
  refine ⟨by rw [hsize, hsum], by rw [htrees, List.length_map], ?_, ?_⟩
  · rw [hsize]
    generalize sumSizes (trees (mergeAll (ctor h s0).1 (ctor h s0).2 ops).1
      (mergeAll (ctor h s0).1 (ctor h s0).2 ops).2) = total
    constructor
    · intro heq
      have hlt : total < U64 := by
        rw [← heq]
        exact Nat.mod_lt _ (by decide)
      have hU : U64 = 2 ^ 64 := rfl
      rw [hU] at heq hlt hs0
      omega
    · rintro ⟨rfl, hlt⟩
      rw [Nat.zero_add, Nat.mod_eq_of_lt hlt]
  · refine ⟨merge Heap.empty ⟨0, 1⟩ ⟨1, 2 ^ 64 - 1⟩ 5, by decide, by decide, fun g G v => ?_⟩
    exact merge_of_size_zero g G _ v (by decide)

/-- Witness of C19: the accept-state forest (initial size 1) merged with a forest of size
`2 ^ 64 - 1` and with one of size 0: one tree, size 0. -/
theorem size_modular_witness :
    1 < U64 ∧
    (mergeAll (ctor Heap.empty 1).1 (ctor Heap.empty 1).2
        [(⟨5, 2 ^ 64 - 1⟩, 7), (⟨6, 0⟩, 9)]).2.size =
      (1 + (([(⟨5, 2 ^ 64 - 1⟩, 7), ((⟨6, 0⟩ : CandidateKeyForest), 9)].filter
        fun op => decide (0 < op.1.size)).map fun op => op.1.size).sum) % U64 :=
  ⟨by decide, (size_modular Heap.empty 1 [(⟨5, 2 ^ 64 - 1⟩, 7), (⟨6, 0⟩, 9)] (by decide)).1⟩

end CandidateKeyForest

/-- The state-passing traversal hands the heap on as it got it, and its buffers and verifier are
those of `buildAndVerifyKeys`. -/
theorem buildAndVerifyKeysHeap_eq {σ : Type} (P : Params) (V : KeyVerifier σ) :
    ∀ (fuel : Nat) (h : Heap) (t : CandidateKeyTree) (kv kb : List Nat) (d : Nat) (s : σ),
      t.buildAndVerifyKeysHeap P V fuel h kv kb d s =
        (t.buildAndVerifyKeys P V fuel h kv kb d s).map fun r => (h, r)
  | 0, _, _, _, _, _, _ => rfl
  | fuel + 1, h, t, kv, kb, d, s => by
    unfold CandidateKeyTree.buildAndVerifyKeysHeap CandidateKeyTree.buildAndVerifyKeys
    split
    · cases hmem : h.mem t.childForest with
      | nil =>
        dsimp only
        cases V.checkKey s (P.pack d t.fixedValue kb) <;> rfl
      | cons sib sibs =>
        dsimp only
        exact (forEachUntil_map (fun r : List Nat × List Nat × σ => (h, r))
          (fun st => V.success st.2.2) (fun st => V.success st.2.2.2) _ _ (fun _ => rfl)
          (fun c b => (buildAndVerifyKeysHeap_eq P V fuel h c b.1 b.2.1 (d + 1) b.2.2).symm)
          (sib :: sibs) _).symm
    · rfl

namespace CandidateKeyForest

/-- C13: `verifyMergeCandidates` does not modify the forest it is called on, nor `other`. In
state-passing form, with the heap handed through every step of the traversal, the call returns
exactly when `verifyMergeCandidates` does, with the same verifier, and the state it returns has
the heap it was given: every vector, so the tree list of `F` and that of `other`, is as before;
`F.size()` and `other.size()` are as before; the tree built for the merge is in no tree list,
whereas `merge` with the same arguments appends it to the tree list of `F`. -/
theorem verifyMergeCandidates_frame {σ : Type} (P : Params) (V : KeyVerifier σ) (fuel : Nat)
    (h : Heap) (F other : CandidateKeyForest) (v : Nat) (s : σ) :
    verifyMergeCandidatesHeap P V fuel h F s other v =
      (verifyMergeCandidates P V fuel h F s other v).map (fun s' => (h, F, other, s')) ∧
    (∀ r, verifyMergeCandidatesHeap P V fuel h F s other v = some r →
      (∀ a, r.1.mem a = h.mem a) ∧
      r.2.1.size = F.size ∧ trees r.1 r.2.1 = trees h F ∧
      r.2.2.1.size = other.size ∧ trees r.1 r.2.2.1 = trees h other ∧
      (0 < other.size →
        trees (merge h F other v).1 (merge h F other v).2 =
          trees r.1 r.2.1 ++ [⟨v, other.getForest, other.size⟩])) := by
  have heq : verifyMergeCandidatesHeap P V fuel h F s other v =
      (verifyMergeCandidates P V fuel h F s other v).map (fun s' => (h, F, other, s')) := by
    unfold verifyMergeCandidatesHeap verifyMergeCandidates
    by_cases hpos : other.size > 0
    · have hsz : (⟨v, other.getForest, other.size⟩ : CandidateKeyTree).size > 0 := hpos
      simp only [hpos, hsz, if_true, buildAndVerifyKeysHeap_eq, Option.map_map]
      rfl
    · simp only [hpos, if_false]
      rfl
  refine ⟨heq, fun r hr => ?_⟩
  rw [heq] at hr
  simp only [Option.map_eq_some'] at hr
  obtain ⟨s', _, rfl⟩ := hr
  refine ⟨fun _ => rfl, rfl, rfl, rfl, rfl, fun hpos => ?_⟩
  rw [trees_merge, if_pos hpos]

/-- Witness of C13: a forest with the one leaf for value 1 is asked to verify the merge with an
accept-state forest and the value 2; the call returns, the verifier has checked one key, and
the tree list of the forest is still that one leaf, while `merge` would make it two trees. -/
theorem verifyMergeCandidates_frame_witness :
    ∃ r, verifyMergeCandidatesHeap (params8 1) ComparisonKeyVerifier.iface 1
        (acceptStateSet (singlePosition Heap.empty [1]).1).1 (singlePosition Heap.empty [1]).2
        (ComparisonKeyVerifier.ctor [2])
        (acceptStateSet (singlePosition Heap.empty [1]).1).2 2 = some r ∧
      r.2.2.2 = ⟨[2], 1, true⟩ ∧
      trees r.1 r.2.1 = [⟨1, 1, 1⟩] ∧
      trees (merge (acceptStateSet (singlePosition Heap.empty [1]).1).1
          (singlePosition Heap.empty [1]).2
          (acceptStateSet (singlePosition Heap.empty [1]).1).2 2).1
        (merge (acceptStateSet (singlePosition Heap.empty [1]).1).1
          (singlePosition Heap.empty [1]).2
          (acceptStateSet (singlePosition Heap.empty [1]).1).2 2).2 =
        [⟨1, 1, 1⟩, ⟨2, 2, 1⟩] :=
  ⟨_, ((verifyMergeCandidates_frame (params8 1) ComparisonKeyVerifier.iface 1
      (acceptStateSet (singlePosition Heap.empty [1]).1).1 (singlePosition Heap.empty [1]).2
      (acceptStateSet (singlePosition Heap.empty [1]).1).2 2
      (ComparisonKeyVerifier.ctor [2])).1).trans
      (congrArg (Option.map _) (by decide :
        verifyMergeCandidates (params8 1) ComparisonKeyVerifier.iface 1
          (acceptStateSet (singlePosition Heap.empty [1]).1).1
          (singlePosition Heap.empty [1]).2 (ComparisonKeyVerifier.ctor [2])
          (acceptStateSet (singlePosition Heap.empty [1]).1).2 2 = some ⟨[2], 1, true⟩)),
    rfl, by decide, by decide⟩

end CandidateKeyForest

/-! ## `verifyMergeCandidates` against `merge` followed by `verifyKeys` -/

theorem forEachUntil_congr {α β : Type} (stop : β → Bool) (body body' : α → β → Option β) :
    ∀ (l : List α) (b : β), (∀ a ∈ l, ∀ x, body a x = body' a x) →
      forEachUntil stop body l b = forEachUntil stop body' l b
  | [], _, _ => rfl
  | a :: l, b, hb => by
    unfold forEachUntil
    rw [hb a (List.mem_cons_self _ _) b]
    split
    · rfl
    · congr 1
      funext m
      exact forEachUntil_congr stop body body' l m
        (fun a' ha' => hb a' (List.mem_cons_of_mem _ ha'))

theorem foldlM_congr {α β : Type} (f g : β → α → Option β) :
    ∀ (l : List α) (b : β), (∀ a ∈ l, ∀ x, f x a = g x a) → l.foldlM f b = l.foldlM g b
  | [], _, _ => rfl
  | a :: l, b, hfg => by
    simp only [List.foldlM_cons]
    rw [hfg a (List.mem_cons_self _ _) b]
    congr 1
    funext m
    exact foldlM_congr f g l m (fun a' ha' => hfg a' (List.mem_cons_of_mem _ ha'))

/-- The traversal of a tree reads only the vectors it can reach. If `h'` differs from `h` at
most in the vector at `p`, and no tree of `h` outside that vector points to `p`, then a tree
that does not point to `p` is traversed in `h'` as in `h`. -/
theorem buildAndVerifyKeys_congr_heap {σ : Type} (P : Params) (V : KeyVerifier σ)
    (h h' : Heap) (p : Nat) (hagree : ∀ a, a ≠ p → h'.mem a = h.mem a)
    (hnoptr : ∀ a, a ≠ p → ∀ t ∈ h.mem a, t.childForest ≠ p) :
    ∀ (fuel : Nat) (t : CandidateKeyTree) (kv kb : List Nat) (d : Nat) (s : σ),
      t.childForest ≠ p →
      t.buildAndVerifyKeys P V fuel h' kv kb d s = t.buildAndVerifyKeys P V fuel h kv kb d s
  | 0, _, _, _, _, _, _ => rfl
  | fuel + 1, t, kv, kb, d, s, ht => by
    unfold CandidateKeyTree.buildAndVerifyKeys
    rw [hagree _ ht]
    split
    · cases hmem : h.mem t.childForest with
      | nil => rfl
      | cons sib sibs =>
        dsimp only
        exact forEachUntil_congr _ _ _ _ _ (fun c hc x =>
          buildAndVerifyKeys_congr_heap P V h h' p hagree hnoptr fuel c x.1 x.2.1 (d + 1) x.2.2
            (hnoptr _ ht c (by rw [hmem]; exact hc)))
    · rfl

namespace CandidateKeyForest

/-- How `merge` followed by `verifyKeys` splits: when nothing points at the vector of `F` and
`other` has nonzero size and a vector of its own, the run on the merged forest is the run on
`F` as it was, followed, unless the verifier has succeeded, by `verifyMergeCandidates`. -/
theorem verifyKeys_merge_split {σ : Type} (P : Params) (V : KeyVerifier σ) (fuel : Nat)
    (h : Heap) (F other : CandidateKeyForest) (v : Nat) (s : σ) (hpos : 0 < other.size)
    (hne : other.forest ≠ F.forest) (hnoptr : ∀ a, ∀ t ∈ h.mem a, t.childForest ≠ F.forest) :
    verifyKeys P V fuel (merge h F other v).1 (merge h F other v).2 s =
      (verifyKeys P V fuel h F s).bind fun s1 =>
        if V.success s1 then some s1 else verifyMergeCandidates P V fuel h F s1 other v := by
  have hagree : ∀ a, a ≠ F.forest → (merge h F other v).1.mem a = h.mem a :=
    fun a ha => merge_mem_of_ne h F other v a ha
  have hloc : ∀ (t : CandidateKeyTree) (kv kb : List Nat) (d : Nat) (x : σ),
      t.childForest ≠ F.forest →
      t.buildAndVerifyKeys P V fuel (merge h F other v).1 kv kb d x =
        t.buildAndVerifyKeys P V fuel h kv kb d x :=
    buildAndVerifyKeys_congr_heap P V h _ F.forest hagree (fun a _ => hnoptr a) fuel
  unfold verifyKeys
  rw [trees_merge, if_pos hpos, List.foldlM_append]
  have hold : (trees h F).foldlM (fun x tree =>
        if tree.size > 0 && !V.success x then
          (tree.buildAndVerifyKeys P V fuel (merge h F other v).1 (List.replicate P.VecCount 0)
            (List.replicate (byteCount P) 0) 0 x).map fun r => r.2.2
        else some x) s =
      (trees h F).foldlM (fun x tree =>
        if tree.size > 0 && !V.success x then
          (tree.buildAndVerifyKeys P V fuel h (List.replicate P.VecCount 0)
            (List.replicate (byteCount P) 0) 0 x).map fun r => r.2.2
        else some x) s :=
    foldlM_congr _ _ _ _ (fun t ht x => by rw [hloc t _ _ _ x (hnoptr _ t ht)])
  rw [hold]
  congr 1
  funext s1
  have hpos' : (0 < other.size) = True := eq_true hpos
  have hgt : (other.size > 0) = True := eq_true hpos
  simp only [List.foldlM_cons, List.foldlM_nil, verifyMergeCandidates, hgt, hpos', if_true,
    decide_True, Bool.true_and, hloc ⟨v, other.getForest, other.size⟩ _ _ _ s1 hne, bind, pure]
  cases hs : V.success s1
  · simp only [Bool.not_false, if_true, Bool.false_eq_true, if_false]
    cases (⟨v, other.getForest, other.size⟩ : CandidateKeyTree).buildAndVerifyKeys P V fuel h
      (List.replicate P.VecCount 0) (List.replicate (byteCount P) 0) 0 s1 <;> rfl
  · simp

/-- C12 as stated fails: on a forest that already has a tree (the leaf for value 1),
`verifyMergeCandidates` with an accept-state forest and value 2 makes one `checkKey` call, while
`merge` followed by `verifyKeys` makes two (the old tree is verified too). -/
theorem verifyMergeCandidates_ne_merge_verifyKeys :
    verifyMergeCandidates (params8 1) ComparisonKeyVerifier.iface.recording 1
        (acceptStateSet (singlePosition Heap.empty [1]).1).1 (singlePosition Heap.empty [1]).2
        (ComparisonKeyVerifier.ctor [9], [])
        (acceptStateSet (singlePosition Heap.empty [1]).1).2 2 =
      some (⟨[9], 1, false⟩, [(⟨[9], 0, false⟩, [2])]) ∧
    verifyKeys (params8 1) ComparisonKeyVerifier.iface.recording 1
        (merge (acceptStateSet (singlePosition Heap.empty [1]).1).1
          (singlePosition Heap.empty [1]).2
          (acceptStateSet (singlePosition Heap.empty [1]).1).2 2).1
        (merge (acceptStateSet (singlePosition Heap.empty [1]).1).1
          (singlePosition Heap.empty [1]).2
          (acceptStateSet (singlePosition Heap.empty [1]).1).2 2).2
        (ComparisonKeyVerifier.ctor [9], []) =
      some (⟨[9], 2, false⟩, [(⟨[9], 0, false⟩, [1]), (⟨[9], 1, false⟩, [2])]) ∧
    verifyMergeCandidates (params8 1) ComparisonKeyVerifier.iface.recording 1
        (acceptStateSet (singlePosition Heap.empty [1]).1).1 (singlePosition Heap.empty [1]).2
        (ComparisonKeyVerifier.ctor [9], [])
        (acceptStateSet (singlePosition Heap.empty [1]).1).2 2 ≠
      verifyKeys (params8 1) ComparisonKeyVerifier.iface.recording 1
        (merge (acceptStateSet (singlePosition Heap.empty [1]).1).1
          (singlePosition Heap.empty [1]).2
          (acceptStateSet (singlePosition Heap.empty [1]).1).2 2).1
        (merge (acceptStateSet (singlePosition Heap.empty [1]).1).1
          (singlePosition Heap.empty [1]).2
          (acceptStateSet (singlePosition Heap.empty [1]).1).2 2).2
        (ComparisonKeyVerifier.ctor [9], []) := by
  decide

/-- C12, amended: `verifyMergeCandidates` verifies only the tree that `merge` would add. When
`other` has a vector of its own and nothing points at the vector of `F`: if `other.size() > 0`,
then `F.merge(other, v)` followed by `F.verifyKeys(verifier)` is `F.verifyKeys(verifier)` on the
unmerged forest followed, unless the verifier has succeeded, by
`F.verifyMergeCandidates(verifier, other, v)`; and if `F` has no trees and `success()` is false
at entry, `verifyMergeCandidates` leaves the verifier in the same state and makes the same
sequence of `checkKey` calls as `merge` followed by `verifyKeys`. -/
theorem verifyMergeCandidates_amended {σ : Type} (P : Params) (V : KeyVerifier σ) (fuel : Nat)
    (h : Heap) (F other : CandidateKeyForest) (v : Nat) (s : σ)
    (hne : other.forest ≠ F.forest) (hnoptr : ∀ a, ∀ t ∈ h.mem a, t.childForest ≠ F.forest) :
    (0 < other.size →
      verifyKeys P V fuel (merge h F other v).1 (merge h F other v).2 s =
        (verifyKeys P V fuel h F s).bind fun s1 =>
          if V.success s1 then some s1 else verifyMergeCandidates P V fuel h F s1 other v) ∧
    (trees h F = [] → V.success s = false →
      verifyMergeCandidates P V fuel h F s other v =
        verifyKeys P V fuel (merge h F other v).1 (merge h F other v).2 s) ∧
    (trees h F = [] → V.success s = false → ∀ log,
      verifyMergeCandidates P V.recording fuel h F (s, log) other v =
        verifyKeys P V.recording fuel (merge h F other v).1 (merge h F other v).2 (s, log)) := by
  have key : ∀ {τ : Type} (W : KeyVerifier τ) (x : τ), trees h F = [] → W.success x = false →
      verifyMergeCandidates P W fuel h F x other v =
        verifyKeys P W fuel (merge h F other v).1 (merge h F other v).2 x := by
    intro τ W x hF hx
    by_cases hpos : 0 < other.size
    · rw [verifyKeys_merge_split P W fuel h F other v x hpos hne hnoptr]
      have h0 : verifyKeys P W fuel h F x = some x := by
        simp [verifyKeys, hF]
      simp [h0, hx]
    · have hz : other.size = 0 := by omega
      rw [merge_of_size_zero h F other v hz]
      simp [verifyKeys, verifyMergeCandidates, hF, hz]
  exact ⟨fun hpos => verifyKeys_merge_split P V fuel h F other v s hpos hne hnoptr,
    fun hF hs => key V s hF hs, fun hF hs log => key V.recording (s, log) hF hs⟩

/-- Witness of the amended C12: a fresh empty forest, an accept-state forest and value 2. -/
theorem verifyMergeCandidates_amended_witness :
    verifyMergeCandidates (params8 1) ComparisonKeyVerifier.iface 1
        (acceptStateSet (emptySet Heap.empty).1).1 (emptySet Heap.empty).2
        (ComparisonKeyVerifier.ctor [2]) (acceptStateSet (emptySet Heap.empty).1).2 2 =
      verifyKeys (params8 1) ComparisonKeyVerifier.iface 1
        (merge (acceptStateSet (emptySet Heap.empty).1).1 (emptySet Heap.empty).2
          (acceptStateSet (emptySet Heap.empty).1).2 2).1
        (merge (acceptStateSet (emptySet Heap.empty).1).1 (emptySet Heap.empty).2
          (acceptStateSet (emptySet Heap.empty).1).2 2).2
        (ComparisonKeyVerifier.ctor [2]) :=
  (verifyMergeCandidates_amended (params8 1) ComparisonKeyVerifier.iface 1
    (acceptStateSet (emptySet Heap.empty).1).1 (emptySet Heap.empty).2
    (acceptStateSet (emptySet Heap.empty).1).2 2 (ComparisonKeyVerifier.ctor [2]) (by decide)
    (fun a t ht => by
      simp [acceptStateSet, emptySet, ctor, Heap.makeShared, Heap.empty] at ht)).2.1
    (by decide) rfl

/-! ## Growth of a captured forest -/

/-- C18 as stated fails: `A = emptySet().merge(B, 3)` with `B = emptySet().merge(accept, 7)`
submits the one candidate `[3, 7]`; after the later `B.merge(accept, 8)` the same forest `A`,
whose size is still 1, submits `[3, 7]` and `[3, 8]`. -/
theorem captured_growth_is_visible :
    (chain Heap.empty [3, 7]).2.size = 1 ∧
    (verifyKeys (params8 2) ComparisonKeyVerifier.iface.recording 2 (chain Heap.empty [3, 7]).1
        (chain Heap.empty [3, 7]).2 (ComparisonKeyVerifier.ctor [9, 9], [])).map
      (fun r => r.2.map Prod.snd) = some [[3, 7]] ∧
    (verifyKeys (params8 2) ComparisonKeyVerifier.iface.recording 2
        (merge (chain Heap.empty [3, 7]).1 (chain Heap.empty [7]).2
          (acceptStateSet Heap.empty).2 8).1
        (chain Heap.empty [3, 7]).2 (ComparisonKeyVerifier.ctor [9, 9], [])).map
      (fun r => r.2.map Prod.snd) = some [[3, 7], [3, 8]] ∧
    (verifyKeys (params8 2) ComparisonKeyVerifier.iface.recording 2
        (merge (chain Heap.empty [3, 7]).1 (chain Heap.empty [7]).2
          (acceptStateSet Heap.empty).2 8).1
        (chain Heap.empty [3, 7]).2 (ComparisonKeyVerifier.ctor [9, 9], [])).map
      (fun r => r.2.map Prod.snd) ≠
    (verifyKeys (params8 2) ComparisonKeyVerifier.iface.recording 2 (chain Heap.empty [3, 7]).1
        (chain Heap.empty [3, 7]).2 (ComparisonKeyVerifier.ctor [9, 9], [])).map
      (fun r => r.2.map Prod.snd) := by
  decide

/-- C18, amended: after `A.merge(B, v)` with `B.size() > 0`, where `A` and `B` have different
vectors, a later `B.merge(X, w)` with `X.size() > 0` leaves the tree list of `A` as it was, its
last tree still carrying `v`, the pointer to the vector of `B` and the size of `B` at capture
time, and leaves `A.size()` as the first merge made it; but the vector that tree points to is
the live vector of `B`, which now ends with the tree merged in later, while `B.size()` has
grown. -/
theorem captured_growth_amended (h : Heap) (A B X : CandidateKeyForest) (v w : Nat)
    (hB : 0 < B.size) (hX : 0 < X.size) (hne : A.forest ≠ B.forest) :
    trees (merge (merge h A B v).1 B X w).1 (merge h A B v).2 =
      trees (merge h A B v).1 (merge h A B v).2 ∧
    trees (merge h A B v).1 (merge h A B v).2 = trees h A ++ [⟨v, B.getForest, B.size⟩] ∧
    (merge h A B v).2.size = (A.size + B.size) % U64 ∧
    (merge (merge h A B v).1 B X w).1.mem
        (⟨v, B.getForest, B.size⟩ : CandidateKeyTree).childForest =
      (merge h A B v).1.mem (⟨v, B.getForest, B.size⟩ : CandidateKeyTree).childForest ++
        [⟨w, X.getForest, X.size⟩] ∧
    (merge (merge h A B v).1 B X w).2.size = (B.size + X.size) % U64 := by
  have h1 := trees_merge h A B v
  have h2 := trees_merge (merge h A B v).1 B X w
  have s1 := size_merge h A B v
  have s2 := size_merge (merge h A B v).1 B X w
  simp only [hB, hX, if_true] at h1 h2 s1 s2
  have hf : (merge (merge h A B v).1 B X w).2.forest = B.forest := merge_forest _ B X w
  refine ⟨?_, h1, s1, ?_, s2⟩
  · exact merge_mem_of_ne (merge h A B v).1 B X w (merge h A B v).2.forest
      (by rw [merge_forest]; exact hne)
  · have : trees (merge (merge h A B v).1 B X w).1 (merge (merge h A B v).1 B X w).2 =
        (merge (merge h A B v).1 B X w).1.mem B.forest := by
      rw [trees, hf]
    rw [this] at h2
    exact h2

/-- Witness of the amended C18: an empty forest `A`, a one-tree forest `B` and an accept-state
forest `X`. -/
theorem captured_growth_amended_witness :
    trees (merge (merge (emptySet (chain Heap.empty [7]).1).1
        (emptySet (chain Heap.empty [7]).1).2 (chain Heap.empty [7]).2 3).1
        (chain Heap.empty [7]).2 (acceptStateSet Heap.empty).2 8).1
      (merge (emptySet (chain Heap.empty [7]).1).1
        (emptySet (chain Heap.empty [7]).1).2 (chain Heap.empty [7]).2 3).2 =
    trees (merge (emptySet (chain Heap.empty [7]).1).1
        (emptySet (chain Heap.empty [7]).1).2 (chain Heap.empty [7]).2 3).1
      (merge (emptySet (chain Heap.empty [7]).1).1
        (emptySet (chain Heap.empty [7]).1).2 (chain Heap.empty [7]).2 3).2 :=
  (captured_growth_amended (emptySet (chain Heap.empty [7]).1).1
    (emptySet (chain Heap.empty [7]).1).2 (chain Heap.empty [7]).2 (acceptStateSet Heap.empty).2
    3 8 (by decide) (by decide) (by decide)).1

end CandidateKeyForest

/-! ## Size against the number of candidates -/

theorem forEachUntil_of_stop {α β : Type} (stop : β → Bool) (body : α → β → Option β)
    (l : List α) (b b' : β) (h : forEachUntil stop body l b = some b') (hb : stop b = true) :
    b' = b := by
  cases l with
  | nil =>
    simp only [forEachUntil, Option.some.injEq] at h
    exact h.symm
  | cons a l =>
    unfold forEachUntil at h
    rw [hb] at h
    simp only [if_true, Option.some.injEq] at h
    exact h.symm

/-- A loop with early exit that ends in a state without `stop` has run its body on every
element, so a measure that each such body run raises by `w` ends raised by the sum of `w`. -/
theorem forEachUntil_sum {α β : Type} (stop : β → Bool) (body : α → β → Option β)
    (μ : β → Nat) (w : α → Nat) :
    ∀ (l : List α) (b b' : β),
      (∀ a ∈ l, ∀ x x', body a x = some x' → stop x' = false → μ x' = μ x + w a) →
      forEachUntil stop body l b = some b' → stop b' = false → μ b' = μ b + (l.map w).sum
  | [], b, b', _, h, _ => by
    simp only [forEachUntil, Option.some.injEq] at h
    subst h
    simp
  | a :: l, b, b', hbody, h, hb' => by
    have hb : stop b = false := by
      cases hs : stop b with
      | false => rfl
      | true =>
        have := forEachUntil_of_stop stop body (a :: l) b b' h hs
        rw [this, hs] at hb'
        exact hb'
    unfold forEachUntil at h
    rw [hb] at h
    simp only [Bool.false_eq_true, if_false, Option.bind_eq_some] at h
    obtain ⟨m, hm, hrest⟩ := h
    have hms : stop m = false := by
      cases hs : stop m with
      | false => rfl
      | true =>
        have := forEachUntil_of_stop stop body l m b' hrest hs
        rw [this, hs] at hb'
        exact hb'
    rw [forEachUntil_sum stop body μ w l m b'
      (fun a' ha' => hbody a' (List.mem_cons_of_mem _ ha')) hrest hb',
      hbody a (List.mem_cons_self _ _) b m hm hms]
    simp only [List.map_cons, List.sum_cons]
    omega

theorem foldlM_of_stop {α β : Type} (f : β → α → Option β) (stop : β → Bool)
    (hskip : ∀ x a, stop x = true → f x a = some x) :
    ∀ (l : List α) (b b' : β), l.foldlM f b = some b' → stop b = true → b' = b
  | [], b, b', h, _ => by
    simp only [List.foldlM_nil, pure, Option.some.injEq] at h
    exact h.symm
  | a :: l, b, b', h, hb => by
    simp only [List.foldlM_cons, hskip b a hb, bind, Option.some_bind] at h
    exact foldlM_of_stop f stop hskip l b b' h hb

theorem foldlM_sum {α β : Type} (f : β → α → Option β) (stop : β → Bool) (μ : β → Nat)
    (w : α → Nat) (hskip : ∀ x a, stop x = true → f x a = some x) :
    ∀ (l : List α) (b b' : β),
      (∀ a ∈ l, ∀ x x', stop x = false → f x a = some x' → stop x' = false →
        μ x' = μ x + w a) →
      l.foldlM f b = some b' → stop b' = false → μ b' = μ b + (l.map w).sum
  | [], b, b', _, h, _ => by
    simp only [List.foldlM_nil, pure, Option.some.injEq] at h
    subst h
    simp
  | a :: l, b, b', hf, h, hb' => by
    have hb : stop b = false := by
      cases hs : stop b with
      | false => rfl
      | true =>
        have := foldlM_of_stop f stop hskip (a :: l) b b' h hs
        rw [this, hs] at hb'
        exact hb'
    simp only [List.foldlM_cons, bind, Option.bind_eq_some] at h
    obtain ⟨m, hm, hrest⟩ := h
    have hms : stop m = false := by
      cases hs : stop m with
      | false => rfl
      | true =>
        have := foldlM_of_stop f stop hskip l m b' hrest hs
        rw [this, hs] at hb'
        exact hb'
    rw [foldlM_sum f stop μ w hskip l m b'
      (fun a' ha' => hf a' (List.mem_cons_of_mem _ ha')) hrest hb',
      hf a (List.mem_cons_self _ _) b m hb hm hms]
    simp only [List.map_cons, List.sum_cons]
    omega

/-- The traversal of a tree whose child forest fits in `n` levels, when it ends without
success, has logged one call per leaf below the tree. -/
theorem buildAndVerifyKeys_count {σ : Type} (P : Params) (V : KeyVerifier σ) (h : Heap) :
    ∀ (n fuel : Nat) (t : CandidateKeyTree) (kv kb : List Nat) (d : Nat)
      (st : σ × List (σ × List Nat)) (r : List Nat × List Nat × σ × List (σ × List Nat)),
      h.fits n t.childForest = true →
      t.buildAndVerifyKeys P V.recording fuel h kv kb d st = some r →
      V.success r.2.2.1 = false →
      r.2.2.2.length = st.2.length + h.leaves n t.childForest := by
  have hleaf : ∀ (t : CandidateKeyTree) (kv kb : List Nat) (d : Nat)
      (st : σ × List (σ × List Nat)) (r : List Nat × List Nat × σ × List (σ × List Nat)),
      (V.recording.checkKey st (P.pack d t.fixedValue kb)).map
        (fun x => (kv.set d t.fixedValue, P.pack d t.fixedValue kb, x)) = some r →
      r.2.2.2.length = st.2.length + 1 := by
    intro t kv kb d st r hr
    simp only [Option.map_eq_some'] at hr
    obtain ⟨x, hx, rfl⟩ := hr
    have hx' : (V.checkKey st.1 (P.pack d t.fixedValue kb)).map
        (fun next => (next, st.2 ++ [(st.1, P.pack d t.fixedValue kb)])) = some x := hx
    simp only [Option.map_eq_some'] at hx'
    obtain ⟨y, _, rfl⟩ := hx'
    simp
  intro n
  induction n with
  | zero =>
    intro fuel t kv kb d st r hfit hr _
    have hmem : h.mem t.childForest = [] := by
      simpa [Heap.fits] using hfit
    cases fuel with
    | zero => simp [CandidateKeyTree.buildAndVerifyKeys] at hr
    | succ f =>
      unfold CandidateKeyTree.buildAndVerifyKeys at hr
      split at hr
      · simp only [hmem] at hr
        rw [hleaf t kv kb d st r hr]
        simp [Heap.leaves]
      · simp at hr
  | succ m ih =>
    intro fuel t kv kb d st r hfit hr hsucc
    cases fuel with
    | zero => simp [CandidateKeyTree.buildAndVerifyKeys] at hr
    | succ f =>
      unfold CandidateKeyTree.buildAndVerifyKeys at hr
      split at hr
      · cases hmem : h.mem t.childForest with
        | nil =>
          simp only [hmem] at hr
          rw [hleaf t kv kb d st r hr]
          simp [Heap.leaves, hmem]
        | cons sib sibs =>
          have hall : ∀ c ∈ sib :: sibs, h.fits m c.childForest = true := by
            have := hfit
            simp only [Heap.fits, hmem, List.all_eq_true] at this
            exact this
          simp only [hmem] at hr
          have hsum : r.2.2.2.length = st.2.length +
              ((sib :: sibs).map fun c => h.leaves m c.childForest).sum :=
            forEachUntil_sum
              (fun x : List Nat × List Nat × σ × List (σ × List Nat) =>
                V.recording.success x.2.2)
              _ (fun x => x.2.2.2.length) (fun c => h.leaves m c.childForest)
              (sib :: sibs) _ r
              (fun c hc x x' hx hx' => ih f c x.1 x.2.1 (d + 1) x.2.2 x' (hall c hc) hx hx')
              hr hsucc
          rw [hsum]
          simp [Heap.leaves, hmem]
      · simp at hr

theorem Heap.sizesExact_spec (h : Heap) : ∀ (n : Nat) (t : CandidateKeyTree),
    h.sizesExact n t = true →
    h.fits n t.childForest = true ∧ t.size = h.leaves n t.childForest
  | 0, t, hex => by
    simp only [Heap.sizesExact, Bool.and_eq_true, beq_iff_eq] at hex
    exact ⟨hex.1, by simp [Heap.leaves, hex.2]⟩
  | n + 1, t, hex => by
    simp only [Heap.sizesExact, Bool.and_eq_true, Bool.not_eq_true', beq_iff_eq,
      List.all_eq_true] at hex
    obtain ⟨hne, hsz, hall⟩ := hex
    have ih := fun x hx => Heap.sizesExact_spec h n x (hall x hx)
    cases hmem : h.mem t.childForest with
    | nil => simp [hmem] at hne
    | cons c cs =>
      rw [hmem] at ih hsz
      constructor
      · simp only [Heap.fits, hmem, List.all_eq_true]
        exact fun x hx => (ih x hx).1
      · rw [hsz]
        simp only [Heap.leaves, hmem, CandidateKeyForest.sumSizes]
        congr 1
        exact List.map_congr_left (fun x hx => (ih x hx).2)

theorem all_congr_of_mem {α : Type} (f g : α → Bool) : ∀ (l : List α),
    (∀ a ∈ l, f a = g a) → l.all f = l.all g
  | [], _ => rfl
  | a :: l, hfg => by
    simp only [List.all_cons]
    rw [hfg a (List.mem_cons_self _ _),
      all_congr_of_mem f g l (fun x hx => hfg x (List.mem_cons_of_mem _ hx))]

/-- Exactness of the sizes below a tree depends only on the vectors the tree reaches. If `h'`
differs from `h` at most in the vector at `p`, and no tree of `h` outside that vector points to
`p`, then a tree that does not point to `p` has exact sizes in `h'` iff it has in `h`. -/
theorem Heap.sizesExact_congr (h h' : Heap) (p : Nat)
    (hagree : ∀ a, a ≠ p → h'.mem a = h.mem a)
    (hnoptr : ∀ a, a ≠ p → ∀ t ∈ h.mem a, t.childForest ≠ p) :
    ∀ (n : Nat) (t : CandidateKeyTree), t.childForest ≠ p →
      h'.sizesExact n t = h.sizesExact n t
  | 0, t, ht => by
    simp only [Heap.sizesExact, hagree _ ht]
  | n + 1, t, ht => by
    simp only [Heap.sizesExact, hagree _ ht]
    congr 2
    exact all_congr_of_mem _ _ _ (fun c hc =>
      Heap.sizesExact_congr h h' p hagree hnoptr n c (hnoptr _ ht c hc))

namespace CandidateKeyForest

/-- A run of `verifyKeys` that ends without success, on a forest whose vector fits in
`VecCount` levels, has logged one call per candidate of the forest. -/
theorem verifyKeys_count {σ : Type} (P : Params) (V : KeyVerifier σ) (fuel : Nat) (h : Heap)
    (F : CandidateKeyForest) (st st' : σ × List (σ × List Nat))
    (hfit : h.fits P.VecCount F.forest = true)
    (hrun : verifyKeys P V.recording fuel h F st = some st')
    (hfinal : V.success st'.1 = false) :
    st'.2.length = st.2.length + h.candidates P.VecCount F.forest := by
  unfold verifyKeys at hrun
  refine foldlM_sum _ (fun x : σ × List (σ × List Nat) => V.success x.1)
    (fun x => x.2.length)
    (fun t => if 0 < t.size then h.leaves (P.VecCount - 1) t.childForest else 0)
    (fun x a hx => ?_) (trees h F) st st' (fun t ht x x' hs hx hs' => ?_) hrun hfinal
  · have hx' : V.recording.success x = true := hx
    simp [hx']
  · have hs1 : V.recording.success x = false := hs
    by_cases hpos : 0 < t.size
    · have hgt : (t.size > 0) = True := eq_true hpos
      simp only [hgt, hs1, decide_True, Bool.not_false, Bool.and_self, if_true,
        Option.map_eq_some'] at hx
      obtain ⟨r, hr, rfl⟩ := hx
      cases hn : P.VecCount with
      | zero =>
        rw [hn] at hfit
        simp only [Heap.fits, List.isEmpty_iff] at hfit
        rw [trees, hfit] at ht
        simp at ht
      | succ m =>
        rw [hn] at hfit
        have hall : h.fits m t.childForest = true := by
          simp only [Heap.fits, List.all_eq_true] at hfit
          exact hfit t ht
        have := buildAndVerifyKeys_count P V h m fuel t _ _ 0 x r hall hr hs'
        simp [hpos, this]
    · have hgt : (t.size > 0) = False := eq_false hpos
      simp only [hgt, decide_False, Bool.false_and, Bool.false_eq_true, if_false,
        Option.some.injEq] at hx
      subst hx
      simp [hpos]

theorem wellSized_succ (h : Heap) (n : Nat) (G : CandidateKeyForest)
    (hG : h.wellSized (n + 1) G = true) :
    G.size = sumSizes (trees h G) ∧ ∀ t ∈ trees h G, h.sizesExact n t = true := by
  simp only [Heap.wellSized, Bool.and_eq_true, beq_iff_eq, List.all_eq_true] at hG
  exact hG

theorem wellSized_emptySet (g : Heap) (n : Nat) :
    (emptySet g).1.wellSized (n + 1) (emptySet g).2 = true := by
  simp [Heap.wellSized, emptySet, ctor, Heap.makeShared, size, sumSizes]

theorem wellSized_acceptStateSet (g : Heap) :
    (acceptStateSet g).1.wellSized 0 (acceptStateSet g).2 = true := by
  simp [Heap.wellSized, acceptStateSet, ctor, Heap.makeShared, size]

/-- The tree that `merge` builds from a forest that is well sized for `n` positions and has
nonzero size has exact sizes with `n` positions below it. -/
theorem sizesExact_newTree (h : Heap) (other : CandidateKeyForest) (v : Nat) :
    ∀ (n : Nat), h.wellSized n other = true → 0 < other.size →
      h.sizesExact n ⟨v, other.getForest, other.size⟩ = true
  | 0, ho, _ => by
    simp only [Heap.wellSized, Bool.and_eq_true, beq_iff_eq] at ho
    simp only [Heap.sizesExact, getForest, Bool.and_eq_true, beq_iff_eq]
    exact ⟨ho.2, ho.1⟩
  | n + 1, ho, hpos => by
    obtain ⟨hsz, hall⟩ := wellSized_succ h n other ho
    simp only [Heap.sizesExact, getForest, Bool.and_eq_true, Bool.not_eq_true', beq_iff_eq,
      List.all_eq_true]
    refine ⟨?_, hsz, hall⟩
    cases hmem : h.mem other.forest with
    | nil =>
      rw [trees, hmem] at hsz
      simp only [sumSizes, List.map_nil, List.sum_nil] at hsz
      omega
    | cons c cs => rfl

/-- The invariant of `merge`: a forest that is well sized for `n + 1` positions stays so when a
forest that is well sized for `n` positions is merged into it, provided the other forest has a
vector of its own, no tree points at the vector of this forest, and the sum of the sizes is
below `2 ^ 64`. -/
theorem wellSized_merge (h : Heap) (F other : CandidateKeyForest) (v n : Nat)
    (hF : h.wellSized (n + 1) F = true) (ho : h.wellSized n other = true)
    (hne : other.forest ≠ F.forest) (hnoptr : ∀ a, ∀ t ∈ h.mem a, t.childForest ≠ F.forest)
    (hsum : F.size + other.size < U64) :
    (merge h F other v).1.wellSized (n + 1) (merge h F other v).2 = true := by
  by_cases hpos : 0 < other.size
  · obtain ⟨hsz, hall⟩ := wellSized_succ h n F hF
    have hagree : ∀ a, a ≠ F.forest → (merge h F other v).1.mem a = h.mem a :=
      fun a ha => merge_mem_of_ne h F other v a ha
    have hcongr : ∀ t : CandidateKeyTree, t.childForest ≠ F.forest →
        (merge h F other v).1.sizesExact n t = h.sizesExact n t :=
      Heap.sizesExact_congr h _ F.forest hagree (fun a _ => hnoptr a) n
    have htrees := trees_merge h F other v
    have hsize := size_merge h F other v
    rw [if_pos hpos] at htrees hsize
    have hf : (merge h F other v).2.forest = F.forest := merge_forest h F other v
    have htrees' : (merge h F other v).1.mem (merge h F other v).2.forest =
        trees h F ++ [⟨v, other.getForest, other.size⟩] := htrees
    simp only [Heap.wellSized, Bool.and_eq_true, beq_iff_eq, List.all_eq_true, htrees']
    constructor
    · rw [hsize, Nat.mod_eq_of_lt hsum, hsz, sumSizes_append]
      simp [sumSizes]
    · intro t ht
      rcases List.mem_append.1 ht with ht | ht
      · rw [hcongr t (hnoptr _ t ht)]
        exact hall t ht
      · simp only [List.mem_singleton] at ht
        subst ht
        rw [hcongr _ hne]
        exact sizesExact_newTree h other v n ho hpos
  · have hz : other.size = 0 := by omega
    rw [merge_of_size_zero h F other v hz]
    exact hF

/-- A merge into `F` leaves every forest with another vector well sized, when no tree points
at the vector of `F`. -/
theorem wellSized_merge_other (h : Heap) (F other G : CandidateKeyForest) (v : Nat)
    (hG : G.forest ≠ F.forest) (hnoptr : ∀ a, ∀ t ∈ h.mem a, t.childForest ≠ F.forest) :
    ∀ (m : Nat), h.wellSized m G = true → (merge h F other v).1.wellSized m G = true
  | 0, hw => by
    simp only [Heap.wellSized, merge_mem_of_ne h F other v G.forest hG] at hw ⊢
    exact hw
  | m + 1, hw => by
    obtain ⟨hsz, hall⟩ := wellSized_succ h m G hw
    simp only [Heap.wellSized, merge_mem_of_ne h F other v G.forest hG, Bool.and_eq_true,
      beq_iff_eq, List.all_eq_true]
    refine ⟨hsz, fun t ht => ?_⟩
    rw [Heap.sizesExact_congr h _ F.forest (fun a ha => merge_mem_of_ne h F other v a ha)
      (fun a _ => hnoptr a) m t (hnoptr _ t ht)]
    exact hall t ht

/-- After a merge of a forest with another vector into `F`, still no tree points at the vector
of `F`. -/
theorem merge_noptr (h : Heap) (F other : CandidateKeyForest) (v : Nat)
    (hne : other.forest ≠ F.forest) (hnoptr : ∀ a, ∀ t ∈ h.mem a, t.childForest ≠ F.forest) :
    ∀ a, ∀ t ∈ (merge h F other v).1.mem a, t.childForest ≠ F.forest := by
  intro a t ht
  by_cases ha : a = F.forest
  · subst ha
    have htrees := trees_merge h F other v
    rw [trees, merge_forest] at htrees
    rw [htrees] at ht
    split at ht
    · rcases List.mem_append.1 ht with ht | ht
      · exact hnoptr _ t ht
      · simp only [List.mem_singleton] at ht
        subst ht
        exact hne
    · exact hnoptr _ t ht
  · rw [merge_mem_of_ne h F other v a ha] at ht
    exact hnoptr a t ht

/-- C14 as stated fails: the accept-state forest has size 1, but `verifyKeys` on it submits no
candidate, here to a comparison verifier that does not report success. -/
theorem size_ne_candidates_acceptStateSet :
    (acceptStateSet Heap.empty).2.size = 1 ∧
    verifyKeys (params8 1) ComparisonKeyVerifier.iface.recording 1 (acceptStateSet Heap.empty).1
      (acceptStateSet Heap.empty).2 (ComparisonKeyVerifier.ctor [9], []) =
      some (ComparisonKeyVerifier.ctor [9], []) ∧
    (ComparisonKeyVerifier.ctor [9]).success = false ∧
    (verifyKeys (params8 1) ComparisonKeyVerifier.iface.recording 1 (acceptStateSet Heap.empty).1
      (acceptStateSet Heap.empty).2 (ComparisonKeyVerifier.ctor [9], [])).map
        (fun r => r.2.length) ≠ some (acceptStateSet Heap.empty).2.size := by
  decide

/-- C14, amended: for a forest that is well sized for `VecCount ≥ 1` positions, `size()` is the
number of candidates that `verifyKeys` submits in a run that ends without success (so, the
verifier being changed by `checkKey` only and asked before each tree, in a run in which it
never reported success): every such run has logged exactly `size()` calls, and the run returns
once the fuel reaches `VecCount` when the verifier is defined on candidates of `byteCount`
bytes. Well sized forests are what `merge` builds: `emptySet()` is well sized for every
positive number of positions, `acceptStateSet()` for none left, and merging a forest that is
well sized for one position less, with a vector of its own, into a well sized forest that no
tree points at, the sizes summing to less than `2 ^ 64`, gives a well sized forest, keeps the
other forests well sized and leaves no tree pointing at the merged forest. -/
theorem size_counts_candidates {σ : Type} (P : Params) (V : KeyVerifier σ) (fuel : Nat)
    (h : Heap) (F : CandidateKeyForest) (s : σ) (hpos : 0 < P.VecCount)
    (hwell : h.wellSized P.VecCount F = true) :
    (∀ s' log, verifyKeys P V.recording fuel h F (s, []) = some (s', log) →
      V.success s' = false → log.length = F.size) ∧
    (∀ J : σ → Prop, J s →
      (∀ x c, J x → c.length = byteCount P → ∃ y, V.checkKey x c = some y ∧ J y) →
      (∀ d v b, (P.pack d v b).length = b.length) → P.VecCount ≤ fuel →
      ∃ r, verifyKeys P V.recording fuel h F (s, []) = some r) ∧
    (∀ (g : Heap) (n : Nat), (emptySet g).1.wellSized (n + 1) (emptySet g).2 = true ∧
      (acceptStateSet g).1.wellSized 0 (acceptStateSet g).2 = true) ∧
    (∀ (other : CandidateKeyForest) (v : Nat),
      h.wellSized (P.VecCount - 1) other = true → other.forest ≠ F.forest →
      (∀ a, ∀ t ∈ h.mem a, t.childForest ≠ F.forest) → F.size + other.size < U64 →
      (merge h F other v).1.wellSized P.VecCount (merge h F other v).2 = true ∧
      (∀ (G : CandidateKeyForest) (m : Nat), G.forest ≠ F.forest → h.wellSized m G = true →
        (merge h F other v).1.wellSized m G = true) ∧
      (∀ a, ∀ t ∈ (merge h F other v).1.mem a, t.childForest ≠ F.forest)) := by
  obtain ⟨m, hm⟩ : ∃ m, P.VecCount = m + 1 := ⟨P.VecCount - 1, by omega⟩
  have hm' : P.VecCount - 1 = m := by omega
  rw [hm] at hwell
  obtain ⟨hsize, hexact⟩ := wellSized_succ h m F hwell
  have hfit : h.fits P.VecCount F.forest = true := by
    rw [hm]
    simp only [Heap.fits, List.all_eq_true]
    exact fun t ht => (h.sizesExact_spec m t (hexact t ht)).1
  have hcand : h.candidates P.VecCount F.forest = F.size := by
    rw [hsize, Heap.candidates, sumSizes, hm']
    congr 1
    refine List.map_congr_left (fun t ht => ?_)
    have := (h.sizesExact_spec m t (hexact t ht)).2
    by_cases h0 : 0 < t.size
    · rw [if_pos h0, this]
    · rw [if_neg h0]
      omega
  refine ⟨fun s' log hrun hs' => ?_, fun J hJ hV hP hfuel => ?_,
    fun g n => ⟨wellSized_emptySet g n, wellSized_acceptStateSet g⟩,
    fun other v ho hne hnoptr hsum => ?_⟩
  · have := verifyKeys_count P V fuel h F (s, []) (s', log) hfit hrun hs'
    simpa [hcand] using this
  · obtain ⟨r, hr, _⟩ := verifyKeys_returns P V.recording (fun st => J st.1)
      (fun x c hx hc => by
        obtain ⟨y, hy, hJy⟩ := hV x.1 c hx hc
        refine ⟨(y, x.2 ++ [(x.1, c)]), ?_, hJy⟩
        show (V.checkKey x.1 c).map (fun next => (next, x.2 ++ [(x.1, c)])) = _
        rw [hy]
        rfl)
      hP fuel h F (s, []) hfit hfuel hJ
    exact ⟨r, hr⟩
  · rw [hm'] at ho
    rw [hm]
    exact ⟨wellSized_merge h F other v m hwell ho hne hnoptr hsum,
      fun G k hG hw => wellSized_merge_other h F other G v hG hnoptr k hw,
      merge_noptr h F other v hne hnoptr⟩

/-- Witness of the amended C14: two positions; `B` holds the leaves 7 and 8, and `A` is the
empty set merged with `(B, 3)` and `(B, 4)`. `A` is well sized, has size 4, and the comparison
verifier for the absent key `[9, 9]` is given four candidates and does not succeed. -/
theorem size_counts_candidates_witness :
    (0 < (params8 2).VecCount ∧
      (mergeAll (emptySet (singlePosition Heap.empty [7, 8]).1).1
        (emptySet (singlePosition Heap.empty [7, 8]).1).2
        [((singlePosition Heap.empty [7, 8]).2, 3), ((singlePosition Heap.empty [7, 8]).2, 4)]
      ).1.wellSized (params8 2).VecCount
      (mergeAll (emptySet (singlePosition Heap.empty [7, 8]).1).1
        (emptySet (singlePosition Heap.empty [7, 8]).1).2
        [((singlePosition Heap.empty [7, 8]).2, 3), ((singlePosition Heap.empty [7, 8]).2, 4)]
      ).2 = true) ∧
    (verifyKeys (params8 2) ComparisonKeyVerifier.iface.recording 2
        (mergeAll (emptySet (singlePosition Heap.empty [7, 8]).1).1
          (emptySet (singlePosition Heap.empty [7, 8]).1).2
          [((singlePosition Heap.empty [7, 8]).2, 3), ((singlePosition Heap.empty [7, 8]).2, 4)]
        ).1
        (mergeAll (emptySet (singlePosition Heap.empty [7, 8]).1).1
          (emptySet (singlePosition Heap.empty [7, 8]).1).2
          [((singlePosition Heap.empty [7, 8]).2, 3), ((singlePosition Heap.empty [7, 8]).2, 4)]
        ).2 (ComparisonKeyVerifier.ctor [9, 9], [])).map
      (fun r => (r.1.success, r.2.map Prod.snd)) =
        some (false, [[3, 7], [3, 8], [4, 7], [4, 8]]) ∧
    (mergeAll (emptySet (singlePosition Heap.empty [7, 8]).1).1
        (emptySet (singlePosition Heap.empty [7, 8]).1).2
        [((singlePosition Heap.empty [7, 8]).2, 3), ((singlePosition Heap.empty [7, 8]).2, 4)]
      ).2.size = 4 ∧
    ∀ s' log, verifyKeys (params8 2) ComparisonKeyVerifier.iface.recording 2
        (mergeAll (emptySet (singlePosition Heap.empty [7, 8]).1).1
          (emptySet (singlePosition Heap.empty [7, 8]).1).2
          [((singlePosition Heap.empty [7, 8]).2, 3), ((singlePosition Heap.empty [7, 8]).2, 4)]
        ).1
        (mergeAll (emptySet (singlePosition Heap.empty [7, 8]).1).1
          (emptySet (singlePosition Heap.empty [7, 8]).1).2
          [((singlePosition Heap.empty [7, 8]).2, 3), ((singlePosition Heap.empty [7, 8]).2, 4)]
        ).2 (ComparisonKeyVerifier.ctor [9, 9], []) = some (s', log) →
      ComparisonKeyVerifier.iface.success s' = false →
      log.length =
        (mergeAll (emptySet (singlePosition Heap.empty [7, 8]).1).1
          (emptySet (singlePosition Heap.empty [7, 8]).1).2
          [((singlePosition Heap.empty [7, 8]).2, 3), ((singlePosition Heap.empty [7, 8]).2, 4)]
        ).2.size :=
  ⟨⟨by decide, by decide⟩, by decide, by decide,
    (size_counts_candidates (params8 2) ComparisonKeyVerifier.iface 2 _ _
      (ComparisonKeyVerifier.ctor [9, 9]) (by decide) (by decide)).1⟩

end CandidateKeyForest
end labynkyr.search
